import Mathlib

/-!
Verification development for the qpsk receiver core (float32/qpsk).

The C++ sources under `src/` are shallowly embedded: every class becomes a
structure, every method a function on that structure.  Machine floats are
idealised as exact arithmetic (`ℚ` where the source never calls `exp`, `ℝ`
where it does); fixed-width unsigned integers are `ℕ` with explicit
`% 2 ^ 32` wherever the source arithmetic can wrap.
-/

set_option maxRecDepth 4000

namespace qpsk

/-! ### util.h -/

/-- Clamp, from `util.h`: `(x < min) ? min : (x > max) ? max : x`. -/
def Clamp {α : Type} [LinearOrder α] (x lo hi : α) : α :=
  if x < lo then lo else if hi < x then hi else x

/-- Truncate, from `util.h`: `static_cast<float>(static_cast<int>(x))`,
truncation toward zero. -/
def Truncate {α : Type} [LinearOrderedField α] [FloorRing α] (x : α) : α :=
  if x < 0 then (⌈x⌉ : ℤ) else (⌊x⌋ : ℤ)

/-- FractionalPart, from `util.h`: `x - Truncate(x)`. -/
def FractionalPart {α : Type} [LinearOrderedField α] [FloorRing α] (x : α) : α :=
  x - Truncate x

theorem Clamp_le {α : Type} [LinearOrder α] (x lo hi : α) (h : lo ≤ hi) :
    lo ≤ Clamp x lo hi ∧ Clamp x lo hi ≤ hi := by
  unfold Clamp
  split
  · exact ⟨le_refl _, h⟩
  · split
    · exact ⟨h, le_refl _⟩
    · constructor
      · exact le_of_not_lt (by assumption)
      · exact le_of_not_lt (by assumption)

theorem FractionalPart_mem {α : Type} [LinearOrderedField α] [FloorRing α]
    (x : α) : -1 < FractionalPart x ∧ FractionalPart x < 1 := by
  unfold FractionalPart Truncate
  split
  · constructor
    · have h := Int.ceil_lt_add_one x
      linarith
    · have h := Int.le_ceil x
      linarith
  · constructor
    · have h := Int.floor_le x
      linarith
    · have h := Int.lt_floor_add_one x
      linarith

theorem FractionalPart_nonneg {α : Type} [LinearOrderedField α] [FloorRing α]
    (x : α) (hx : 0 ≤ x) : 0 ≤ FractionalPart x := by
  unfold FractionalPart Truncate
  rw [if_neg (not_lt.mpr hx)]
  have h := Int.floor_le x
  linarith

theorem Clamp_eq_self {α : Type} [LinearOrder α] (x lo hi : α)
    (h1 : ¬ x < lo) (h2 : ¬ hi < x) : Clamp x lo hi = x := by
  unfold Clamp
  rw [if_neg h1, if_neg h2]

theorem FractionalPart_of_nonpos {α : Type} [LinearOrderedField α] [FloorRing α]
    (x : α) (h1 : -1 < x) (h2 : x ≤ 0) : FractionalPart x = x := by
  unfold FractionalPart Truncate
  by_cases hx : x < 0
  · rw [if_pos hx]
    have hc : ⌈x⌉ = 0 := by
      rw [Int.ceil_eq_zero_iff]
      constructor <;> simpa
    rw [hc]
    simp
  · rw [if_neg hx]
    have hx0 : x = 0 := le_antisymm h2 (not_lt.mp hx)
    rw [hx0]
    simp

/-! ### fifo.h

`Fifo<T, size>`: the producer / consumer indices are `uint32_t` values that
grow without bound and wrap at `2 ^ 32`; the buffer is indexed modulo `size`.
`Init` only resets the indices, leaving whatever contents the buffer had
(uninitialised memory in the C++), so the model carries the buffer contents
as a parameter. -/

structure Fifo (α : Type) where
  head : ℕ
  tail : ℕ
  data : List α

namespace Fifo

/-- Wrap-around uint32 difference `a - b` (for `a, b < 2 ^ 32`). -/
def sub32 (a b : ℕ) : ℕ := (a + 2 ^ 32 - b) % 2 ^ 32

/-- `Fifo::Init`: reset both indices, keep the buffer storage. -/
def Init {α : Type} (f : Fifo α) : Fifo α := { f with head := 0, tail := 0 }

/-- `Fifo::available`. -/
def available {α : Type} (f : Fifo α) : ℕ := sub32 f.tail f.head

/-- `Fifo::Push(T* buffer, uint32_t length)` specialised to one element, as
`Fifo::Push(T item)` calls it: fails when `tail - head > size - 1`. -/
def Push {α : Type} (size : ℕ) (f : Fifo α) (x : α) : Fifo α × Bool :=
  if sub32 f.tail f.head > size - 1 then (f, false)
  else ({ f with data := f.data.set (f.tail % size) x,
                 tail := (f.tail + 1) % 2 ^ 32 }, true)

/-- `Fifo::Pop(T&)`: returns `none` when empty. -/
def Pop {α : Type} [Inhabited α] (size : ℕ) (f : Fifo α) : Option α × Fifo α :=
  if sub32 f.tail f.head < 1 then (none, f)
  else (some (f.data.getD (f.head % size) default),
        { f with head := (f.head + 1) % 2 ^ 32 })

/-- Sequential pushes; the boolean records whether every push returned true. -/
def pushAll {α : Type} (size : ℕ) (f : Fifo α) : List α → Fifo α × Bool
  | [] => (f, true)
  | x :: rest =>
      let r := Push size f x
      let r' := pushAll size r.1 rest
      (r'.1, r.2 && r'.2)

/-- Sequential pops, collecting the returned elements. -/
def popN {α : Type} [Inhabited α] (size : ℕ) (f : Fifo α) :
    ℕ → List (Option α) × Fifo α
  | 0 => ([], f)
  | n + 1 =>
      let r := Pop size f
      let r' := popN size r.2 n
      (r.1 :: r'.1, r'.2)

/-- Writing `xs` consecutively starting at index `t` (what successful pushes
do to the buffer). -/
def setSeq {α : Type} (d : List α) (t : ℕ) : List α → List α
  | [] => d
  | x :: rest => setSeq (d.set t x) (t + 1) rest

end Fifo

theorem getD_set_self {α : Type} (d₀ : α) :
    ∀ (l : List α) (n : ℕ) (x : α), n < l.length →
      (l.set n x).getD n d₀ = x := by
  intro l
  induction l with
  | nil => intro n x h; simp at h
  | cons a t ih =>
      intro n x h
      cases n with
      | zero => simp [List.set, List.getD]
      | succ m =>
          simp only [List.set, List.getD_cons_succ]
          exact ih m x (by simpa using h)

theorem getD_set_ne {α : Type} (d₀ : α) :
    ∀ (l : List α) (n m : ℕ) (x : α), n ≠ m →
      (l.set n x).getD m d₀ = l.getD m d₀ := by
  intro l
  induction l with
  | nil => intro n m x _; simp [List.set]
  | cons a t ih =>
      intro n m x hnm
      cases n with
      | zero =>
          cases m with
          | zero => exact absurd rfl hnm
          | succ k => simp [List.set]
      | succ j =>
          cases m with
          | zero => simp [List.set]
          | succ k =>
              simp only [List.set, List.getD_cons_succ]
              exact ih j k x (fun h => hnm (by rw [h]))

namespace Fifo

theorem setSeq_length {α : Type} :
    ∀ (xs : List α) (d : List α) (t : ℕ),
      (setSeq d t xs).length = d.length := by
  intro xs
  induction xs with
  | nil => intro d t; rfl
  | cons x rest ih =>
      intro d t
      rw [setSeq, ih, List.length_set]

theorem setSeq_getD_lt {α : Type} [Inhabited α] :
    ∀ (xs : List α) (d : List α) (t j : ℕ), j < t →
      (setSeq d t xs).getD j default = d.getD j default := by
  intro xs
  induction xs with
  | nil => intro d t j _; rfl
  | cons x rest ih =>
      intro d t j hj
      rw [setSeq, ih _ _ _ (Nat.lt_succ_of_lt hj),
        getD_set_ne _ _ _ _ _ (Nat.ne_of_gt hj)]

theorem setSeq_getD {α : Type} [Inhabited α] :
    ∀ (xs : List α) (d : List α) (t : ℕ), t + xs.length ≤ d.length →
      ∀ (i : ℕ) (hi : i < xs.length),
        (setSeq d t xs).getD (t + i) default = xs.get ⟨i, hi⟩ := by
  intro xs
  induction xs with
  | nil => intro d t _ i hi; simp at hi
  | cons x rest ih =>
      intro d t hlen i hi
      cases i with
      | zero =>
          rw [Nat.add_zero, setSeq, setSeq_getD_lt _ _ _ _ (Nat.lt_succ_self t),
            getD_set_self]
          · rfl
          · simp only [List.length_cons] at hlen
            omega
      | succ k =>
          have := ih (d.set t x) (t + 1)
            (by simp only [List.length_set]; simp only [List.length_cons] at hlen; omega)
            k (by simpa using hi)
          rw [setSeq]
          rw [show t + (k + 1) = (t + 1) + k by omega]
          rw [this]
          rfl

theorem sub32_eq {a b : ℕ} (hba : b ≤ a) (hlt : a - b < 2 ^ 32) :
    sub32 a b = a - b := by
  unfold sub32
  omega

theorem pushAll_success {α : Type} (size : ℕ) (hs : 0 < size)
    (hsz32 : size < 2 ^ 32) :
    ∀ (xs : List α) (t : ℕ) (data : List α), data.length = size →
      t + xs.length ≤ size →
      pushAll size ⟨0, t, data⟩ xs = (⟨0, t + xs.length, setSeq data t xs⟩, true) := by
  intro xs
  induction xs with
  | nil => intro t data _ _; simp [pushAll, setSeq]
  | cons x rest ih =>
      intro t data hdata hlen
      have ht : t ≤ size - 1 := by
        simp only [List.length_cons] at hlen; omega
      have hsub : sub32 t 0 = t := by
        unfold sub32; omega
      have hcond : ¬ sub32 t 0 > size - 1 := by omega
      have htmod : t % size = t := Nat.mod_eq_of_lt (by omega)
      have htail : (t + 1) % 2 ^ 32 = t + 1 := Nat.mod_eq_of_lt (by omega)
      rw [pushAll]
      simp only [Push, if_neg hcond, htmod, htail]
      rw [ih (t + 1) (data.set t x)
        (by rw [List.length_set]; exact hdata)
        (by simp only [List.length_cons] at hlen; omega)]
      simp only [setSeq, List.length_cons]
      rw [show t + (rest.length + 1) = t + 1 + rest.length from by omega]
      rfl

theorem pushAll_bound {α : Type} (size : ℕ) (hs : 0 < size)
    (hsz32 : size < 2 ^ 32) :
    ∀ (xs : List α) (t : ℕ) (data : List α), data.length = size → t ≤ size →
      (pushAll size ⟨0, t, data⟩ xs).2 = true → t + xs.length ≤ size := by
  intro xs
  induction xs with
  | nil => intro t data _ ht _; simpa using ht
  | cons x rest ih =>
      intro t data hdata ht hok
      have hsub : sub32 t 0 = t := by
        unfold sub32; omega
      by_cases hfull : t > size - 1
      · exfalso
        rw [pushAll] at hok
        rw [Push] at hok
        rw [hsub, if_pos hfull] at hok
        simp at hok
      · have hcond : ¬ sub32 t 0 > size - 1 := by omega
        rw [pushAll] at hok
        rw [Push] at hok
        rw [hsub, if_neg (by omega : ¬ t > size - 1)] at hok
        rw [show (t + 1) % 2 ^ 32 = t + 1 from Nat.mod_eq_of_lt (by omega)] at hok
        simp only [Bool.and_eq_true] at hok
        have := ih (t + 1) (data.set (t % size) x)
          (by rw [List.length_set]; exact hdata) (by omega) hok.2
        simp only [List.length_cons]
        omega

theorem popN_ordered {α : Type} [Inhabited α] (size : ℕ) (hs : 0 < size)
    (hsz32 : size < 2 ^ 32) :
    ∀ (xs : List α) (k : ℕ) (data : List α), data.length = size →
      k + xs.length ≤ size →
      (∀ (i : ℕ) (hi : i < xs.length), data.getD (k + i) default = xs.get ⟨i, hi⟩) →
      (popN size ⟨k, k + xs.length, data⟩ xs.length).1 = xs.map some := by
  intro xs
  induction xs with
  | nil => intro k data _ _ _; simp [popN]
  | cons x rest ih =>
      intro k data hdata hlen hget
      simp only [List.length_cons] at hlen
      have hk : k < size := by omega
      have hkmod : k % size = k := Nat.mod_eq_of_lt hk
      have hhead : (k + 1) % 2 ^ 32 = k + 1 := Nat.mod_eq_of_lt (by omega)
      simp only [List.length_cons]
      rw [show k + (rest.length + 1) = k + 1 + rest.length from by omega]
      rw [popN]
      have hcond : ¬ sub32 (k + 1 + rest.length) k < 1 := by
        unfold sub32; omega
      simp only [Pop, if_neg hcond, hkmod, hhead]
      have hx : data.getD k default = x := by
        have := hget 0 (by simp)
        simpa using this
      rw [hx]
      have hrest := ih (k + 1) data hdata (by omega) ?_
      · rw [hrest]
        rfl
      · intro i hi
        have h2 := hget (i + 1) (by simp only [List.length_cons]; omega)
        rw [show k + 1 + i = k + (i + 1) from by omega, h2]
        rfl

end Fifo

/-- Claim C7: FIFO lossless under non-overflow.  If every `Push` of
`x₀ .. xₙ` into a freshly initialised `Fifo` returns true, then successive
`Pop` calls return exactly `x₀ .. xₙ` in order (sequential interpretation). -/
theorem c7_fifo_lossless {α : Type} [Inhabited α] (size : ℕ) (hs : 0 < size)
    (hsz32 : size < 2 ^ 32) (f : Fifo α) (hdata : f.data.length = size)
    (xs : List α)
    (hok : (Fifo.pushAll size (Fifo.Init f) xs).2 = true) :
    (Fifo.popN size (Fifo.pushAll size (Fifo.Init f) xs).1 xs.length).1 =
      xs.map some := by
  have hinit : Fifo.Init f = ⟨0, 0, f.data⟩ := rfl
  rw [hinit] at hok ⊢
  have hbound : 0 + xs.length ≤ size :=
    Fifo.pushAll_bound size hs hsz32 xs 0 f.data hdata (Nat.zero_le size) hok
  rw [Fifo.pushAll_success size hs hsz32 xs 0 f.data hdata hbound]
  simp only
  have := Fifo.popN_ordered size hs hsz32 xs 0 (Fifo.setSeq f.data 0 xs)
    (by rw [Fifo.setSeq_length]; exact hdata)
    (by simpa using hbound)
    (fun i hi => Fifo.setSeq_getD xs f.data 0 (by omega) i hi)
  simpa using this

/-- Witness for C7 at a concrete instance: `size = 4`, pushing `[5, 6, 7]`. -/
theorem c7_fifo_lossless_witness :
    (Fifo.popN 4 (Fifo.pushAll 4 (Fifo.Init (⟨2, 9, [0, 0, 0, 0]⟩ : Fifo ℕ)) [5, 6, 7]).1 3).1 =
      [some 5, some 6, some 7] := by
  have := c7_fifo_lossless 4 (by decide) (by decide)
    (⟨2, 9, [0, 0, 0, 0]⟩ : Fifo ℕ) (by decide) [5, 6, 7] (by decide)
  simpa using this

/-! ### delay_line.h and window.h

`DelayLine<T, size>` is a circular buffer; `Window<T, length>` keeps the last
`length` writes of a running sum inside a delay line of size
`1 << ceil(log2(length))`; `Bay<T, length, width>` chains `width` windows.
The element type is kept generic (the C++ instantiates `float`, idealised as
an exact `AddCommGroup` / field). -/

structure DelayLine (α : Type) where
  buffer : List α
  head : ℕ

namespace DelayLine

variable {α : Type} [AddCommGroup α]

/-- `DelayLine::Init(value)`: fill the buffer, reset the head. -/
def Init (size : ℕ) (v : α) : DelayLine α := ⟨List.replicate size v, 0⟩

/-- Buffer capacity (the `size` template parameter). -/
def size (d : DelayLine α) : ℕ := d.buffer.length

/-- `DelayLine::Tap(i)`: `buffer_[(head_ + size - 1 - i) % size]`
(undefined for `i >= size` in the source). -/
def Tap (d : DelayLine α) (i : ℕ) : α :=
  d.buffer.getD ((d.head + d.size - 1 - i) % d.size) 0

/-- `DelayLine::Process(input)`: read the oldest element, overwrite it with
`input`, advance the head. -/
def Process (d : DelayLine α) (input : α) : α × DelayLine α :=
  (d.buffer.getD d.head 0,
   ⟨d.buffer.set d.head input, (d.head + 1) % d.size⟩)

end DelayLine

/-- `Window<T, length>` state; the delay line has `1 << kLengthBits` slots
with `kLengthBits = ceil(log2(length))`. -/
structure Window (α : Type) (N : ℕ) where
  delay : DelayLine α
  sum : α
  refresh : α
  age : ℕ

namespace Window

variable {α : Type} [AddCommGroup α] {N : ℕ}

/-- Doubling loop computing the least power of two that is at least `N`
(seeded with enough fuel to terminate structurally). -/
def delaySizeAux (N : ℕ) : ℕ → ℕ → ℕ
  | 0, acc => acc
  | fuel + 1, acc => if N ≤ acc then acc else delaySizeAux N fuel (2 * acc)

/-- Delay-line capacity of `Window<T, N>`: `1 << ceil(log2 N)`, i.e. the
least power of two `≥ N` (for `N ≥ 1`; `N = 0` is a compile error in C++). -/
def delaySize (N : ℕ) : ℕ := delaySizeAux N N 1

/-- `Window::Init`. -/
def Init (α : Type) [AddCommGroup α] (N : ℕ) : Window α N :=
  ⟨DelayLine.Init (delaySize N) 0, 0, 0, 0⟩

/-- `Window::Write(in)`: update the incremental sum, rebuilding it from the
refresh accumulator every `N` writes, then push into the delay line. -/
def Write (w : Window α N) (input : α) : Window α N :=
  if w.age + 1 < N then
    { delay := (w.delay.Process input).2,
      sum := w.sum + input - w.delay.Tap (N - 1),
      refresh := w.refresh + input, age := w.age + 1 }
  else
    { delay := (w.delay.Process input).2,
      sum := w.refresh + input, refresh := 0, age := 0 }

/-- `Window::operator[](i)`. -/
def get (w : Window α N) (i : ℕ) : α := w.delay.Tap i

/-- Successive writes. -/
def writeList (w : Window α N) (vs : List α) : Window α N :=
  vs.foldl Write w

end Window

/-- `Bay<T, length, width>`: stacked windows, the oldest element of window
`i` feeding window `i + 1`. -/
structure Bay (α : Type) (N W : ℕ) where
  windows : List (Window α N)
  sum : α

namespace Bay

variable {α : Type} [AddCommGroup α] {N W : ℕ}

/-- `Bay::Init`. -/
def Init (α : Type) [AddCommGroup α] (N W : ℕ) : Bay α N W :=
  ⟨List.replicate W (Window.Init α N), 0⟩

/-- One iteration of the `Bay::Write` loop: carry the element cascading
through, the accumulated sum, and the rebuilt window list. -/
def writeStep (acc : α × α × List (Window α N)) (w : Window α N) :
    α × α × List (Window α N) :=
  let out := w.get (N - 1)
  let w' := w.Write acc.1
  (out, acc.2.1 + w'.sum, acc.2.2 ++ [w'])

/-- `Bay::Write(in)`. -/
def Write (b : Bay α N W) (input : α) : Bay α N W :=
  let r := b.windows.foldl writeStep (input, 0, [])
  ⟨r.2.2, r.2.1⟩

/-- `Bay::operator[](i)`. -/
def get (b : Bay α N W) (i : ℕ) : Window α N :=
  b.windows.getD i (Window.Init α N)

end Bay

namespace Window

variable {α : Type} [AddCommGroup α] {N : ℕ}

/-- State of a fresh `Window<T, N>` after `k` writes of the prefix of `vs`. -/
def Inv (N : ℕ) (vs : List α) (k : ℕ) (w : Window α N) : Prop :=
  w.age = k ∧ w.sum = (vs.take k).sum ∧ w.refresh = (vs.take k).sum ∧
  w.delay.head = k ∧ w.delay.buffer.length = delaySize N ∧
  ∀ j, j < delaySize N →
    w.delay.buffer.getD j 0 = if j < k then vs.getD j 0 else 0

theorem delaySizeAux_ge (N : ℕ) :
    ∀ (fuel acc : ℕ), N ≤ 2 ^ fuel * acc → N ≤ delaySizeAux N fuel acc := by
  intro fuel
  induction fuel with
  | zero => intro acc h; simpa [delaySizeAux] using h
  | succ f ih =>
      intro acc h
      rw [delaySizeAux]
      split
      · assumption
      · exact ih (2 * acc) (by rw [pow_succ] at h; linarith)

theorem delaySizeAux_pos (N : ℕ) :
    ∀ (fuel acc : ℕ), 0 < acc → 0 < delaySizeAux N fuel acc := by
  intro fuel
  induction fuel with
  | zero => intro acc h; simpa [delaySizeAux] using h
  | succ f ih =>
      intro acc h
      rw [delaySizeAux]
      split
      · assumption
      · exact ih (2 * acc) (by omega)

theorem le_delaySize (N : ℕ) : N ≤ delaySize N :=
  delaySizeAux_ge N N 1 (by simpa using (Nat.lt_two_pow N).le)

theorem delaySize_pos (N : ℕ) : 0 < delaySize N :=
  delaySizeAux_pos N N 1 (by omega)

theorem getD_replicate_self {β : Type} (v : β) (n j : ℕ) :
    (List.replicate n v).getD j v = v := by
  induction n generalizing j with
  | zero => rfl
  | succ m ih =>
      cases j with
      | zero => rfl
      | succ i => simpa [List.replicate, List.getD] using ih i

theorem Inv_init (vs : List α) : Inv N vs 0 (Init α N) := by
  refine ⟨rfl, by simp [Init], by simp [Init], rfl, by simp [Init, DelayLine.Init], ?_⟩
  intro j hj
  rw [if_neg (by omega)]
  exact getD_replicate_self 0 (delaySize N) j

theorem take_succ_sum (vs : List α) (k : ℕ) (hk : k < vs.length) :
    (vs.take (k + 1)).sum = (vs.take k).sum + vs.getD k 0 := by
  rw [List.take_succ, List.sum_append]
  congr 1
  rw [List.getD_eq_getElem?_getD]
  cases h : vs[k]? with
  | none => exact absurd (List.getElem?_eq_none_iff.mp h) (by omega)
  | some v => simp [h]

theorem Inv_write (vs : List α) (k : ℕ) (w : Window α N)
    (hInv : Inv N vs k w) (hk1 : k + 1 < N) (hkvs : k < vs.length) :
    Inv N vs (k + 1) (w.Write (vs.getD k 0)) := by
  obtain ⟨hage, hsum, hrefresh, hhead, hblen, hbuf⟩ := hInv
  have hND : N ≤ delaySize N := le_delaySize N
  have hkD : k < delaySize N := by omega
  have hkD1 : k + 1 < delaySize N ∨ k + 1 = delaySize N := by omega
  have htap : w.delay.Tap (N - 1) = 0 := by
    unfold DelayLine.Tap DelayLine.size
    rw [hblen, hhead]
    have hidx : (k + delaySize N - 1 - (N - 1)) = k + delaySize N - N := by omega
    rw [hidx, Nat.mod_eq_of_lt (by omega)]
    rw [hbuf _ (by omega)]
    rw [if_neg (by omega)]
  unfold Write
  rw [if_pos (by omega : w.age + 1 < N)]
  refine ⟨by simpa using hage, ?_, ?_, ?_, ?_, ?_⟩
  · simp only [htap, hsum]
    rw [take_succ_sum vs k hkvs]
    abel
  · simp only [hrefresh]
    rw [take_succ_sum vs k hkvs]
  · simp only [DelayLine.Process, DelayLine.size, List.length_set, hblen, hhead]
    exact Nat.mod_eq_of_lt (by omega)
  · simp only [DelayLine.Process, List.length_set]
    exact hblen
  · intro j hj
    simp only [DelayLine.Process, hhead]
    by_cases hjk : j = k
    · subst hjk
      rw [getD_set_self _ _ _ _ (by omega)]
      rw [if_pos (by omega)]
    · rw [getD_set_ne _ _ _ _ _ (fun h => hjk h.symm)]
      rw [hbuf j hj]
      by_cases hjlt : j < k
      · rw [if_pos hjlt, if_pos (by omega)]
      · rw [if_neg hjlt, if_neg (by omega)]

theorem write_last_sum (vs : List α) (k : ℕ) (w : Window α N)
    (hInv : Inv N vs k w) (hk : k + 1 = N) :
    (w.Write (vs.getD k 0)).sum = (vs.take (k + 1)).sum := by
  obtain ⟨hage, _, hrefresh, _, _, _⟩ := hInv
  unfold Write
  rw [if_neg (by omega : ¬ w.age + 1 < N)]
  simp only [hrefresh]
  by_cases hkvs : k < vs.length
  · rw [take_succ_sum vs k hkvs]
  · rw [List.take_of_length_le (by omega), List.take_of_length_le (by omega)]
    have : vs.getD k 0 = 0 := by
      rw [List.getD_eq_getElem?_getD, List.getElem?_eq_none (by omega)]
      rfl
    rw [this, add_zero]

theorem writeList_sum_aux (hN : 0 < N) (vs : List α) (hlen : vs.length = N) :
    ∀ (rest : List α) (k : ℕ) (w : Window α N), k + rest.length = N →
      rest = vs.drop k → Inv N vs k w →
      (writeList w rest).sum = vs.sum := by
  intro rest
  induction rest with
  | nil =>
      intro k w hk _ hInv
      obtain ⟨_, hsum, _⟩ := hInv
      simp only [writeList, List.foldl_nil]
      simp only [List.length_nil] at hk
      rw [hsum, List.take_of_length_le (by omega)]
  | cons v r ih =>
      intro k w hk hdrop hInv
      have hkvs : k < vs.length := by
        simp only [List.length_cons] at hk; omega
      have hv : vs.getD k 0 = v := by
        have h0 : (vs.drop k).head? = some v := by rw [← hdrop]; rfl
        rw [List.head?_drop] at h0
        rw [List.getD_eq_getElem?_getD, h0]
        rfl
      by_cases hfin : k + 1 < N
      · have hInv' := Inv_write vs k w hInv hfin hkvs
        have hr : r = vs.drop (k + 1) := by
          have := congrArg List.tail hdrop
          simpa [List.tail_drop] using this
        have := ih (k + 1) (w.Write (vs.getD k 0)) (by simp only [List.length_cons] at hk; omega)
          hr hInv'
        rw [← this, hv]
        rfl
      · have hk1 : k + 1 = N := by
          simp only [List.length_cons] at hk; omega
        have hr : r = [] := by
          have : r.length = 0 := by simp only [List.length_cons] at hk; omega
          exact List.eq_nil_of_length_eq_zero this
        subst hr
        have := write_last_sum vs k w hInv hk1
        simp only [writeList, List.foldl_cons, List.foldl_nil]
        rw [← hv, this, hk1, List.take_of_length_le (by omega)]

/-- Running sum after writing exactly `N` elements into a fresh window. -/
theorem writeList_sum (hN : 0 < N) (vs : List α) (hlen : vs.length = N) :
    (writeList (Init α N) vs).sum = vs.sum :=
  writeList_sum_aux hN vs hlen vs 0 (Init α N) (by omega) (by simp) (Inv_init vs)

/-- In every well-formed window state, `window[0]` after a write is the
element just written. -/
theorem get_zero_after_write (w : Window α N) (v : α)
    (hbuf : 0 < w.delay.buffer.length)
    (hhead : w.delay.head < w.delay.buffer.length) :
    (w.Write v).get 0 = v := by
  have hdelay : (w.Write v).delay = (w.delay.Process v).2 := by
    unfold Write
    split <;> rfl
  unfold get
  rw [hdelay]
  unfold DelayLine.Tap DelayLine.Process DelayLine.size
  simp only [List.length_set]
  set L := w.delay.buffer.length with hL
  have hidx : ((w.delay.head + 1) % L + L - 1 - 0) % L = w.delay.head := by
    by_cases hwrap : w.delay.head + 1 = L
    · rw [hwrap, Nat.mod_self]
      rw [show 0 + L - 1 - 0 = L - 1 from by omega]
      rw [Nat.mod_eq_of_lt (by omega)]
      omega
    · rw [Nat.mod_eq_of_lt (show w.delay.head + 1 < L by omega)]
      rw [show w.delay.head + 1 + L - 1 - 0 = w.delay.head + L from by omega]
      rw [Nat.add_mod_right]
      exact Nat.mod_eq_of_lt hhead
  rw [hidx]
  exact getD_set_self _ _ _ _ hhead

end Window

/-- Claim C6: for a freshly initialised `Window<T, N>` and `N` written
elements, `sum()` equals the exact sum of the elements (the float
instantiation is idealised as exact arithmetic), and after any write in a
well-formed state, `window[0]` is the element most recently written. -/
theorem c6_window_sum_and_latest (α : Type) [AddCommGroup α] (N : ℕ)
    (hN : 0 < N) (vs : List α) (hlen : vs.length = N)
    (w : Window α N) (v : α)
    (hbuf : 0 < w.delay.buffer.length)
    (hhead : w.delay.head < w.delay.buffer.length) :
    (Window.writeList (Window.Init α N) vs).sum = vs.sum ∧
      (w.Write v).get 0 = v :=
  ⟨Window.writeList_sum hN vs hlen, Window.get_zero_after_write w v hbuf hhead⟩

/-- Witness for C6: `N = 3` over `ℤ`, writing `[2, 5, 7]`. -/
theorem c6_window_sum_and_latest_witness :
    (Window.writeList (Window.Init ℤ 3) [2, 5, 7]).sum = ([2, 5, 7] : List ℤ).sum ∧
      ((Window.Init ℤ 3).Write 9).get 0 = 9 :=
  c6_window_sum_and_latest ℤ 3 (by decide) [2, 5, 7] (by decide)
    (Window.Init ℤ 3) 9 (by decide) (by decide)

/-! ### crc32.h

Reflected CRC-32, polynomial `0xEDB88320`.  The C++ lookup table is a
memoisation of `ComputeTableEntry`; the embedding computes entries
directly. -/

namespace Crc32

def kPolynomial : ℕ := 0xEDB88320

/-- Bitwise complement of a `uint32_t` value. -/
def not32 (x : ℕ) : ℕ := x ^^^ 0xFFFFFFFF

/-- One of the eight shift/xor rounds of `ComputeTableEntry`. -/
def tableEntryStep (x : ℕ) : ℕ :=
  if x &&& 1 = 1 then (x >>> 1) ^^^ kPolynomial else x >>> 1

/-- `Crc32::ComputeTableEntry`. -/
def ComputeTableEntry (x : ℕ) : ℕ := tableEntryStep^[8] x

/-- One step of `Crc32::Process`:
`crc_ = (crc_ >> 8) ^ table_[(crc_ & 0xFF) ^ byte]`. -/
def ProcessByte (c b : ℕ) : ℕ :=
  (c >>> 8) ^^^ ComputeTableEntry ((c &&& 0xFF) ^^^ b)

/-- Internal register after `Seed(seed)` (`crc_ = ~crc`) followed by
`Process(data, length)`. -/
def reg (seed : ℕ) (data : List ℕ) : ℕ :=
  data.foldl ProcessByte (not32 seed)

/-- `Crc32::crc()` after `Seed(seed); Process(data, length)` — the value
`Packet::Finalize` computes over the payload. -/
def crcOf (seed : ℕ) (data : List ℕ) : ℕ := not32 (reg seed data)

end Crc32

/-! ### error_correction.h

Extended-Hamming decoder with the non-interleaved bit numbering: data bits
are numbered 3, 5, 6, 7, 9, ... (skipping the power-of-two numbers, which
belong to the parity bits of the `parity_bits` word). -/

structure HammingDecoder where
  syndrome : ℕ
  bitNum : ℕ
  parityBits : ℕ

namespace HammingDecoder

/-- `HammingDecoder::Init(parity_bits)`. -/
def Init (parityBits : ℕ) : HammingDecoder := ⟨0, 1, parityBits⟩

/-- The C test `(x & (x - 1)) == 0` (true for 0 and for the powers of two). -/
def pow2test (x : ℕ) : Bool := x &&& (x - 1) == 0

/-- One iteration of the parity-skipping while loop of
`HammingDecoder::Process`. -/
def skipStep (h : HammingDecoder) : HammingDecoder :=
  if pow2test h.bitNum then
    ⟨h.syndrome ^^^ (h.parityBits &&& h.bitNum), h.bitNum + 1, h.parityBits⟩
  else h

/-- The while loop itself.  From every reachable state `bit_num ≥ 1`, and 1, 2
are the only adjacent powers of two, so the loop body runs at most twice;
two unconditional iterations of `skipStep` compute its fixpoint. -/
def skipParity (h : HammingDecoder) : HammingDecoder := skipStep (skipStep h)

/-- The per-data-bit body of the syndrome loop. -/
def processBit (h : HammingDecoder) (bit : Bool) : HammingDecoder :=
  let h' := skipParity h
  ⟨if bit then h'.syndrome ^^^ h'.bitNum else h'.syndrome, h'.bitNum + 1,
    h'.parityBits⟩

/-- Bit `i` of the byte buffer: `(data[i / 8] >> (i % 8)) & 1`. -/
def bitAt (data : List ℕ) (i : ℕ) : Bool :=
  ((data.getD (i / 8) 0) >>> (i % 8)) &&& 1 == 1

/-- The `size * 8` bits of the buffer in stream order. -/
def toBits (data : List ℕ) : List Bool :=
  (List.range (data.length * 8)).map (bitAt data)

def processBits (h : HammingDecoder) (bits : List Bool) : HammingDecoder :=
  bits.foldl processBit h

/-- Syndrome computed by `HammingDecoder::Init(parity_bits)` followed by the
loop of `Process(data, size)`. -/
def syndromeOf (parityBits : ℕ) (data : List ℕ) : ℕ :=
  (processBits (Init parityBits) (toBits data)).syndrome

/-- Bit width (`8 * sizeof(syndrome_) - clz(syndrome_)`), computed with
structural fuel. -/
def bitWidthAux : ℕ → ℕ → ℕ
  | 0, _ => 0
  | fuel + 1, n => if n = 0 then 0 else bitWidthAux fuel (n / 2) + 1

def bitWidth (n : ℕ) : ℕ := bitWidthAux n n

/-- Flip bit `pos` of the buffer: `data[pos / 8] ^= 1 << (pos % 8)`. -/
def flipBit (data : List ℕ) (pos : ℕ) : List ℕ :=
  data.set (pos / 8) ((data.getD (pos / 8) 0) ^^^ (1 <<< (pos % 8)))

/-- `HammingDecoder::Process(data, size)`: syndrome computation followed by
the single-bit correction (`width` is `32 - clz(syndrome)` and `bit_pos` is
`syndrome - 1 - width` in the source). -/
def Process (parityBits : ℕ) (data : List ℕ) : List ℕ :=
  if pow2test (syndromeOf parityBits data) then data
  else if syndromeOf parityBits data - 1 - bitWidth (syndromeOf parityBits data) <
      data.length * 8 then
    flipBit data
      (syndromeOf parityBits data - 1 - bitWidth (syndromeOf parityBits data))
  else data

end HammingDecoder

namespace HammingDecoder

theorem bitWidthAux_eq : ∀ (f1 f2 n : ℕ), n ≤ f1 → n ≤ f2 →
    bitWidthAux f1 n = bitWidthAux f2 n := by
  intro f1
  induction f1 with
  | zero =>
      intro f2 n h1 _
      have hn : n = 0 := by omega
      subst hn
      cases f2 with
      | zero => rfl
      | succ g => simp [bitWidthAux]
  | succ f ih =>
      intro f2 n h1 h2
      cases f2 with
      | zero =>
          have hn : n = 0 := by omega
          subst hn
          simp [bitWidthAux]
      | succ g =>
          by_cases hn : n = 0
          · subst hn; simp [bitWidthAux]
          · rw [bitWidthAux, bitWidthAux, if_neg hn, if_neg hn,
              ih g (n / 2) (by omega) (by omega)]

theorem bitWidth_rec (n : ℕ) (hn : 0 < n) :
    bitWidth n = bitWidth (n / 2) + 1 := by
  unfold bitWidth
  cases n with
  | zero => omega
  | succ m =>
      rw [bitWidthAux, if_neg (by omega)]
      rw [bitWidthAux_eq m ((m + 1) / 2) ((m + 1) / 2) (by omega) (by omega)]

theorem bitWidth_interval : ∀ (k n : ℕ), 2 ^ k ≤ n → n < 2 ^ (k + 1) →
    bitWidth n = k + 1 := by
  intro k
  induction k with
  | zero =>
      intro n h1 h2
      norm_num at h1 h2
      have hn : n = 1 := by omega
      subst hn
      rfl
  | succ j ih =>
      intro n h1 h2
      have hj1 : (2 : ℕ) ^ (j + 1) = 2 ^ j * 2 := pow_succ 2 j
      have hj2 : (2 : ℕ) ^ (j + 2) = 2 ^ (j + 1) * 2 := pow_succ 2 (j + 1)
      have hn : 0 < n := by omega
      rw [bitWidth_rec n hn, ih (n / 2) (by omega) (by omega)]

theorem bitWidth_bounds (n : ℕ) (hn : 0 < n) :
    2 ^ (bitWidth n - 1) ≤ n ∧ n < 2 ^ bitWidth n := by
  induction n using Nat.strong_induction_on with
  | _ n ih =>
      match n, hn with
      | 1, _ => decide
      | (m + 2), _ =>
          have hrec := bitWidth_rec (m + 2) (by omega)
          have hhalf : 0 < (m + 2) / 2 := by omega
          have ⟨hlo, hhi⟩ := ih ((m + 2) / 2) (by omega) hhalf
          set w := bitWidth ((m + 2) / 2) with hw
          have hw1 : 1 ≤ w := by
            by_contra h
            have : w = 0 := by omega
            rw [this] at hhi
            omega
          rw [hrec]
          have hpow : (2 : ℕ) ^ w = 2 ^ (w - 1) * 2 := by
            conv_lhs => rw [show w = (w - 1) + 1 by omega]
            exact pow_succ 2 (w - 1)
          have hpow1 : (2 : ℕ) ^ (w + 1) = 2 ^ w * 2 := pow_succ 2 w
          constructor
          · simp only [Nat.add_sub_cancel]
            omega
          · omega

theorem pow2test_two_pow (k : ℕ) : pow2test (2 ^ k) = true := by
  unfold pow2test
  rw [Nat.and_pow_two_sub_one_eq_mod, Nat.mod_self]
  rfl

theorem pow2test_eq_zero (x : ℕ) (h : pow2test x = true) : x &&& (x - 1) = 0 := by
  unfold pow2test at h
  simpa using h

theorem testBit_of_interval (k n : ℕ) (h1 : 2 ^ k ≤ n) (h2 : n < 2 ^ (k + 1)) :
    n.testBit k = true := by
  rw [Nat.testBit_to_div_mod]
  have hpow : (2 : ℕ) ^ (k + 1) = 2 ^ k * 2 := pow_succ 2 k
  have hdiv : n / 2 ^ k = 1 :=
    Nat.div_eq_of_lt_le (by omega) (by omega)
  rw [hdiv]
  decide

/-- A nonzero value passing the power-of-two test is the power of two given
by its bit width. -/
theorem pow2test_eq_pow (n : ℕ) (hn : 0 < n) (h : pow2test n = true) :
    n = 2 ^ (bitWidth n - 1) := by
  by_contra hne
  have ⟨hlo, hhi⟩ := bitWidth_bounds n hn
  have hw1 : 1 ≤ bitWidth n := by
    by_contra hb
    have : bitWidth n = 0 := by omega
    rw [this] at hhi
    omega
  have hgt : 2 ^ (bitWidth n - 1) < n := lt_of_le_of_ne hlo (fun he => hne he.symm)
  have hbit1 : n.testBit (bitWidth n - 1) = true := by
    apply testBit_of_interval _ _ hlo
    rw [show bitWidth n - 1 + 1 = bitWidth n by omega]
    exact hhi
  have hbit2 : (n - 1).testBit (bitWidth n - 1) = true := by
    apply testBit_of_interval _ _ (by omega)
    rw [show bitWidth n - 1 + 1 = bitWidth n by omega]
    omega
  have hand : (n &&& (n - 1)).testBit (bitWidth n - 1) = true := by
    rw [Nat.testBit_and, hbit1, hbit2]
    rfl
  rw [pow2test_eq_zero n h] at hand
  rw [Nat.zero_testBit] at hand
  exact Bool.noConfusion hand

theorem pow2test_two_pow_add_one (k : ℕ) (hk : 1 ≤ k) :
    pow2test (2 ^ k + 1) = false := by
  by_contra hb
  have h : pow2test (2 ^ k + 1) = true := by
    cases hp : pow2test (2 ^ k + 1)
    · exact absurd hp hb
    · rfl
  have h2 : (2 : ℕ) ≤ 2 ^ k := by
    calc (2 : ℕ) = 2 ^ 1 := rfl
    _ ≤ 2 ^ k := Nat.pow_le_pow_right (by omega) hk
  have hbw : bitWidth (2 ^ k + 1) = k + 1 := by
    apply bitWidth_interval
    · omega
    · have : (2 : ℕ) ^ (k + 1) = 2 ^ k * 2 := pow_succ 2 k
      omega
  have := pow2test_eq_pow (2 ^ k + 1) (by omega) h
  rw [hbw] at this
  simp only [Nat.add_sub_cancel] at this
  omega

/-- The `j`-th non-power-of-two bit number (the number assigned to data
bit `j`): 3, 5, 6, 7, 9, 10, ... -/
def nthNonPow : ℕ → ℕ
  | 0 => 3
  | j + 1 =>
      if pow2test (nthNonPow j + 1) then nthNonPow j + 2 else nthNonPow j + 1

theorem add_two_le_two_pow : ∀ (m : ℕ), 2 ≤ m → m + 2 ≤ 2 ^ m := by
  intro m
  induction m with
  | zero => omega
  | succ p ih =>
      intro h
      by_cases hp : 2 ≤ p
      · have := ih hp
        have hpow : (2 : ℕ) ^ (p + 1) = 2 ^ p * 2 := pow_succ 2 p
        omega
      · have : p = 1 := by omega
        subst this
        decide

/-- Main invariant of the data-bit numbering: each `nthNonPow j` is at least
3, fails the power-of-two test, and the correction formula
`n - 1 - bitWidth n` recovers `j` from it. -/
theorem nthNonPow_inv : ∀ (j : ℕ), 3 ≤ nthNonPow j ∧
    pow2test (nthNonPow j) = false ∧
    nthNonPow j - 1 - bitWidth (nthNonPow j) = j := by
  intro j
  induction j with
  | zero => decide
  | succ j ih =>
      obtain ⟨h3, hnp, hrec⟩ := ih
      have hbpos : 0 < nthNonPow j := by omega
      have ⟨hlo, hhi⟩ := bitWidth_bounds (nthNonPow j) hbpos
      set b := nthNonPow j with hb
      set w := bitWidth b with hwdef
      have hw2 : 2 ≤ w := by
        by_contra hcon
        have hw1 : w ≤ 1 := by omega
        have : (2 : ℕ) ^ w ≤ 2 ^ 1 := Nat.pow_le_pow_right (by omega) hw1
        simp at this
        omega
      have hbw1 : w + 1 ≤ b := by
        by_cases hwe : w = 2
        · omega
        · have h1 : 2 ≤ w - 1 := by omega
          have h2 := add_two_le_two_pow (w - 1) h1
          have h3 : (2 : ℕ) ^ (w - 1) ≤ b := hlo
          omega
      by_cases hp : pow2test (b + 1) = true
      · -- b + 1 is the power of two 2 ^ w, skipped by the numbering.
        have hWpos : 0 < b + 1 := by omega
        have hpw := pow2test_eq_pow (b + 1) hWpos hp
        set W := bitWidth (b + 1) with hWdef
        have hWeq : b + 1 = 2 ^ w := by
          have hup : 2 ^ (W - 1) ≤ 2 ^ w := by rw [← hpw]; omega
          have hdn : 2 ^ (w - 1) < 2 ^ (W - 1) := by rw [← hpw]; omega
          have h1 : W - 1 ≤ w := by
            by_contra hc
            have : w + 1 ≤ W - 1 := by omega
            have := Nat.pow_le_pow_right (show 1 ≤ 2 by omega) this
            have hx : (2 : ℕ) ^ (w + 1) = 2 ^ w * 2 := pow_succ 2 w
            omega
          have h2 : w - 1 < W - 1 :=
            (Nat.pow_lt_pow_iff_right (by omega)).mp hdn
          have : W - 1 = w := by omega
          rw [← this, ← hpw]
        have hnth : nthNonPow (j + 1) = b + 2 := by
          rw [nthNonPow, ← hb, if_pos hp]
        have hpow2w : (2 : ℕ) ^ (w + 1) = 2 ^ w * 2 := pow_succ 2 w
        have hwbig := add_two_le_two_pow w hw2
        have hbwnext : bitWidth (b + 2) = w + 1 := by
          apply bitWidth_interval w <;> omega
        refine ⟨by omega, ?_, ?_⟩
        · rw [hnth, show b + 2 = 2 ^ w + 1 by omega]
          exact pow2test_two_pow_add_one w (by omega)
        · rw [hnth, hbwnext]
          omega
      · -- b + 1 is not a power of two: it is the next data bit number.
        have hpf : pow2test (b + 1) = false := by
          cases hx : pow2test (b + 1)
          · rfl
          · exact absurd hx hp
        have hnth : nthNonPow (j + 1) = b + 1 := by
          rw [nthNonPow, ← hb, if_neg (by rw [hpf]; exact Bool.false_ne_true)]
        have hne : b + 1 ≠ 2 ^ w := by
          intro he
          rw [he] at hpf
          rw [pow2test_two_pow] at hpf
          exact Bool.noConfusion hpf
        have hbwnext : bitWidth (b + 1) = w := by
          have := bitWidth_interval (w - 1) (b + 1) (by omega)
            (by rw [show w - 1 + 1 = w by omega]; omega)
          rw [this]
          omega
        refine ⟨by omega, by rw [hnth]; exact hpf, ?_⟩
        rw [hnth, hbwnext]
        omega

theorem xor_left_comm (a b c : ℕ) : a ^^^ (b ^^^ c) = b ^^^ (a ^^^ c) := by
  rw [← Nat.xor_assoc, Nat.xor_comm a b, Nat.xor_assoc]

/-- Pure bit-number evolution of one `skipStep`. -/
def nnStep (v : ℕ) : ℕ := if pow2test v then v + 1 else v

/-- Pure bit-number evolution of `skipParity`. -/
def nn (v : ℕ) : ℕ := nnStep (nnStep v)

/-- The parity-bit contribution of one `skipStep` to the syndrome. -/
def parityMask (v p : ℕ) : ℕ := if pow2test v then p &&& v else 0

theorem skipStep_eq (s v p : ℕ) :
    skipStep ⟨s, v, p⟩ = ⟨s ^^^ parityMask v p, nnStep v, p⟩ := by
  unfold skipStep parityMask nnStep
  split <;> simp

theorem skipParity_eq (s v p : ℕ) :
    skipParity ⟨s, v, p⟩ =
      ⟨s ^^^ parityMask v p ^^^ parityMask (nnStep v) p, nn v, p⟩ := by
  unfold skipParity
  rw [skipStep_eq, skipStep_eq]
  rfl

theorem processBit_eq (s v p : ℕ) (b : Bool) :
    processBit ⟨s, v, p⟩ b =
      ⟨s ^^^ parityMask v p ^^^ parityMask (nnStep v) p ^^^
        (if b then nn v else 0), nn v + 1, p⟩ := by
  unfold processBit
  rw [skipParity_eq]
  cases b <;> simp

/-- The bit number assigned to relative data-bit index `j` when the decoder
state holds bit number `v`. -/
def assignedNum : ℕ → ℕ → ℕ
  | v, 0 => nn v
  | v, j + 1 => assignedNum (nn v + 1) j

/-- The syndrome is affine in its initial value: running from syndrome `s`
gives `s ^^^` the run from syndrome 0, with identical bit number and parity
word. -/
theorem processBits_affine : ∀ (bits : List Bool) (s v p : ℕ),
    processBits ⟨s, v, p⟩ bits =
      ⟨s ^^^ (processBits ⟨0, v, p⟩ bits).syndrome,
        (processBits ⟨0, v, p⟩ bits).bitNum, p⟩ := by
  intro bits
  induction bits with
  | nil => intro s v p; simp [processBits]
  | cons b rest ih =>
      intro s v p
      rw [show processBits ⟨s, v, p⟩ (b :: rest) =
            processBits (processBit ⟨s, v, p⟩ b) rest from rfl,
          show processBits ⟨0, v, p⟩ (b :: rest) =
            processBits (processBit ⟨0, v, p⟩ b) rest from rfl,
          processBit_eq, processBit_eq,
          ih (s ^^^ parityMask v p ^^^ parityMask (nnStep v) p ^^^
            (if b then nn v else 0)) (nn v + 1) p,
          ih (0 ^^^ parityMask v p ^^^ parityMask (nnStep v) p ^^^
            (if b then nn v else 0)) (nn v + 1) p]
      simp only [Nat.zero_xor, Nat.xor_assoc]

/-- Flip entry `j` of a bit list. -/
def flipNth (j : ℕ) (bits : List Bool) : List Bool :=
  bits.set j (!(bits.getD j false))

theorem flipNth_cons_succ (j : ℕ) (b : Bool) (rest : List Bool) :
    flipNth (j + 1) (b :: rest) = b :: flipNth j rest := rfl

/-- Flipping data bit `j` changes the final syndrome by exactly the bit
number assigned to position `j`. -/
theorem processBits_flip : ∀ (bits : List Bool) (j : ℕ), j < bits.length →
    ∀ (s v p : ℕ),
      (processBits ⟨s, v, p⟩ (flipNth j bits)).syndrome =
        (processBits ⟨s, v, p⟩ bits).syndrome ^^^ assignedNum v j := by
  intro bits
  induction bits with
  | nil => intro j hj; simp at hj
  | cons b rest ih =>
      intro j hj s v p
      cases j with
      | zero =>
          have hflip : flipNth 0 (b :: rest) = (!b) :: rest := rfl
          rw [hflip]
          have h1 : processBits ⟨s, v, p⟩ ((!b) :: rest) =
              processBits (processBit ⟨s, v, p⟩ (!b)) rest := rfl
          have h2 : processBits ⟨s, v, p⟩ (b :: rest) =
              processBits (processBit ⟨s, v, p⟩ b) rest := rfl
          rw [h1, h2, processBit_eq, processBit_eq,
            processBits_affine rest (s ^^^ parityMask v p ^^^
              parityMask (nnStep v) p ^^^ (if !b then nn v else 0)) (nn v + 1) p,
            processBits_affine rest (s ^^^ parityMask v p ^^^
              parityMask (nnStep v) p ^^^ (if b then nn v else 0)) (nn v + 1) p]
          simp only [assignedNum]
          cases b <;>
            simp [Nat.xor_assoc, Nat.xor_comm, xor_left_comm, Nat.xor_cancel_left]
      | succ k =>
          rw [flipNth_cons_succ]
          have h1 : processBits ⟨s, v, p⟩ (b :: flipNth k rest) =
              processBits (processBit ⟨s, v, p⟩ b) (flipNth k rest) := rfl
          have h2 : processBits ⟨s, v, p⟩ (b :: rest) =
              processBits (processBit ⟨s, v, p⟩ b) rest := rfl
          have hk : k < rest.length := by simpa using hj
          rw [h1, h2, processBit_eq, ih k hk]
          rfl

theorem nn_nthNonPow (j : ℕ) : nn (nthNonPow j + 1) = nthNonPow (j + 1) := by
  obtain ⟨h3, hnp, _⟩ := nthNonPow_inv j
  obtain ⟨h3', hnp', _⟩ := nthNonPow_inv (j + 1)
  by_cases hp : pow2test (nthNonPow j + 1) = true
  · have hnth : nthNonPow (j + 1) = nthNonPow j + 2 := by
      rw [nthNonPow, if_pos hp]
    rw [hnth] at hnp'
    rw [hnth]
    simp [nn, nnStep, hp, hnp']
  · have hpf : pow2test (nthNonPow j + 1) = false := by
      cases hx : pow2test (nthNonPow j + 1)
      · rfl
      · exact absurd hx hp
    have hnth : nthNonPow (j + 1) = nthNonPow j + 1 := by
      rw [nthNonPow, if_neg (by rw [hpf]; exact Bool.false_ne_true)]
    rw [hnth]
    simp [nn, nnStep, hpf]

theorem assignedNum_nthNonPow : ∀ (j k : ℕ),
    assignedNum (nthNonPow k + 1) j = nthNonPow (k + 1 + j) := by
  intro j
  induction j with
  | zero => intro k; rw [assignedNum, nn_nthNonPow]
  | succ i ih =>
      intro k
      rw [assignedNum, nn_nthNonPow, ih (k + 1)]
      congr 1
      omega

theorem assignedNum_init : ∀ (j : ℕ), assignedNum 1 j = nthNonPow j := by
  intro j
  cases j with
  | zero => decide
  | succ i =>
      rw [assignedNum, show nn 1 + 1 = nthNonPow 0 + 1 from by decide,
        assignedNum_nthNonPow]
      congr 1
      omega

theorem twoPow_and (t v : ℕ) : 2 ^ t &&& v = 0 ∨ 2 ^ t &&& v = 2 ^ t := by
  by_cases hv : v.testBit t = true
  · right
    apply Nat.eq_of_testBit_eq
    intro i
    rw [Nat.testBit_and, Nat.testBit_two_pow]
    by_cases hit : t = i
    · subst hit; rw [hv]; simp
    · simp [hit]
  · left
    apply Nat.eq_of_testBit_eq
    intro i
    rw [Nat.testBit_and, Nat.testBit_two_pow, Nat.zero_testBit]
    by_cases hit : t = i
    · subst hit
      simp only [Bool.not_eq_true] at hv
      rw [hv]
      simp
    · simp [hit]

theorem mem2_xor {t a b : ℕ} (ha : a = 0 ∨ a = 2 ^ t)
    (hb : b = 0 ∨ b = 2 ^ t) : a ^^^ b = 0 ∨ a ^^^ b = 2 ^ t := by
  rcases ha with ha | ha <;> rcases hb with hb | hb <;> subst ha <;> subst hb <;>
    simp

theorem parityMask_xor (v p t : ℕ) :
    parityMask v (p ^^^ 2 ^ t) =
      parityMask v p ^^^ (if pow2test v then 2 ^ t &&& v else 0) := by
  unfold parityMask
  split
  · exact Nat.and_xor_distrib_right
  · simp

theorem parityMask_diff_mem (v p t : ℕ) :
    ((if pow2test v then 2 ^ t &&& v else 0) = 0 ∨
      (if pow2test v then 2 ^ t &&& v else 0) = 2 ^ t) := by
  split
  · exact twoPow_and t v
  · left; rfl

/-- Flipping one bit of the parity word changes the final syndrome by either
nothing or that parity bit's value. -/
theorem processBits_parity : ∀ (bits : List Bool) (v p t : ℕ),
    ∃ δ, (δ = 0 ∨ δ = 2 ^ t) ∧
      (processBits ⟨0, v, p ^^^ 2 ^ t⟩ bits).syndrome =
        (processBits ⟨0, v, p⟩ bits).syndrome ^^^ δ := by
  intro bits
  induction bits with
  | nil =>
      intro v p t
      exact ⟨0, Or.inl rfl, by simp [processBits]⟩
  | cons b rest ih =>
      intro v p t
      obtain ⟨δr, hδr, hrec⟩ := ih (nn v + 1) p t
      refine ⟨(if pow2test v then 2 ^ t &&& v else 0) ^^^
        ((if pow2test (nnStep v) then 2 ^ t &&& nnStep v else 0) ^^^ δr),
        mem2_xor (parityMask_diff_mem v p t)
          (mem2_xor (parityMask_diff_mem (nnStep v) p t) hδr), ?_⟩
      rw [show processBits ⟨0, v, p ^^^ 2 ^ t⟩ (b :: rest) =
            processBits (processBit ⟨0, v, p ^^^ 2 ^ t⟩ b) rest from rfl,
          show processBits ⟨0, v, p⟩ (b :: rest) =
            processBits (processBit ⟨0, v, p⟩ b) rest from rfl,
          processBit_eq, processBit_eq,
          processBits_affine rest (0 ^^^ parityMask v (p ^^^ 2 ^ t) ^^^
            parityMask (nnStep v) (p ^^^ 2 ^ t) ^^^ (if b then nn v else 0))
            (nn v + 1) (p ^^^ 2 ^ t),
          processBits_affine rest (0 ^^^ parityMask v p ^^^
            parityMask (nnStep v) p ^^^ (if b then nn v else 0)) (nn v + 1) p]
      simp only [Nat.zero_xor]
      rw [hrec, parityMask_xor, parityMask_xor]
      simp [Nat.xor_assoc, Nat.xor_comm, xor_left_comm]

end HammingDecoder

theorem set_getD_self {α : Type} (d₀ : α) :
    ∀ (l : List α) (i : ℕ), i < l.length → l.set i (l.getD i d₀) = l := by
  intro l
  induction l with
  | nil => intro i h; simp at h
  | cons a t ih =>
      intro i h
      cases i with
      | zero => rfl
      | succ m =>
          simp only [List.set, List.getD_cons_succ, List.cons.injEq]
          exact ⟨trivial, ih m (by simpa using h)⟩

namespace HammingDecoder

theorem beq_eq_decide (a b : ℕ) : (a == b) = decide (a = b) := by
  by_cases h : a = b
  · subst h; simp
  · simp [h]

theorem bitAt_testBit (data : List ℕ) (i : ℕ) :
    bitAt data i = (data.getD (i / 8) 0).testBit (i % 8) := by
  unfold bitAt
  rw [Nat.testBit_to_div_mod, Nat.and_one_is_mod, Nat.shiftRight_eq_div_pow,
    beq_eq_decide]

theorem flipBit_length (data : List ℕ) (pos : ℕ) :
    (flipBit data pos).length = data.length := by
  simp [flipBit]

theorem bitAt_flipBit (data : List ℕ) (pos i : ℕ)
    (hpos : pos < data.length * 8) :
    bitAt (flipBit data pos) i =
      if pos = i then !(bitAt data i) else bitAt data i := by
  rw [bitAt_testBit, bitAt_testBit]
  unfold flipBit
  have hp8 : pos / 8 < data.length := by omega
  by_cases hq : i / 8 = pos / 8
  · rw [hq, getD_set_self _ _ _ _ hp8]
    rw [show (1 : ℕ) <<< (pos % 8) = 2 ^ (pos % 8) from by
      rw [Nat.shiftLeft_eq]; omega]
    rw [Nat.testBit_xor]
    by_cases hip : pos = i
    · subst hip
      rw [if_pos rfl, Nat.testBit_two_pow_self]
      simp
    · rw [if_neg hip]
      have hr : pos % 8 ≠ i % 8 := by omega
      rw [Nat.testBit_two_pow_of_ne hr]
      simp [hq]
  · have hip : pos ≠ i := by omega
    rw [if_neg hip, getD_set_ne _ _ _ _ _ (fun h => hq (by omega))]

theorem toBits_length (data : List ℕ) : (toBits data).length = data.length * 8 := by
  simp [toBits]

theorem toBits_flipBit (data : List ℕ) (pos : ℕ) (hpos : pos < data.length * 8) :
    toBits (flipBit data pos) = flipNth pos (toBits data) := by
  have hlen : (flipBit data pos).length = data.length := flipBit_length data pos
  unfold toBits flipNth
  rw [hlen]
  apply List.ext_getElem
  · simp
  · intro i h1 h2
    simp only [List.getElem_map, List.getElem_range]
    rw [List.getElem_set]
    have hi : i < data.length * 8 := by simpa using h1
    rw [bitAt_flipBit data pos i hpos]
    by_cases hip : pos = i
    · subst hip
      rw [if_pos rfl, if_pos rfl]
      congr 1
      rw [List.getD_eq_getElem _ _ (by simpa using hpos)]
      simp
    · rw [if_neg hip, if_neg hip]
      simp

theorem flipBit_flipBit (data : List ℕ) (pos : ℕ) (h : pos < data.length * 8) :
    flipBit (flipBit data pos) pos = data := by
  unfold flipBit
  have hp8 : pos / 8 < data.length := by omega
  rw [getD_set_self _ _ _ _ hp8, List.set_set, Nat.xor_cancel_right]
  exact set_getD_self _ _ _ hp8

theorem pow2test_zero : pow2test 0 = true := by decide

end HammingDecoder

/-- Claim C4: when the extended-Hamming syndrome of the buffer together with
the 16-bit ECC word is zero, `HammingDecoder::Init(ecc)` followed by
`Process(buffer, size)` corrects any single flipped buffer bit back to the
original contents, and a single flipped ECC (parity) bit leaves the buffer
unmodified. -/
theorem c4_hamming_single_bit (data : List ℕ) (ecc : ℕ)
    (hbytes : ∀ b ∈ data, b < 256) (hecc : ecc < 2 ^ 16)
    (hsyn : HammingDecoder.syndromeOf ecc data = 0) :
    (∀ j, j < data.length * 8 →
        HammingDecoder.Process ecc (HammingDecoder.flipBit data j) = data) ∧
    (∀ t, t < 16 →
        HammingDecoder.Process (ecc ^^^ 2 ^ t) data = data) := by
  constructor
  · intro j hj
    have hsynflip : HammingDecoder.syndromeOf ecc (HammingDecoder.flipBit data j) =
        HammingDecoder.nthNonPow j := by
      unfold HammingDecoder.syndromeOf HammingDecoder.Init
      rw [HammingDecoder.toBits_flipBit data j hj]
      rw [HammingDecoder.processBits_flip (HammingDecoder.toBits data) j
        (by rw [HammingDecoder.toBits_length]; exact hj) 0 1 ecc]
      have h0 : (HammingDecoder.processBits ⟨0, 1, ecc⟩
          (HammingDecoder.toBits data)).syndrome = 0 := hsyn
      rw [h0, HammingDecoder.assignedNum_init, Nat.zero_xor]
    obtain ⟨h3, hnp, hrec⟩ := HammingDecoder.nthNonPow_inv j
    unfold HammingDecoder.Process
    rw [hsynflip]
    rw [if_neg (by rw [hnp]; exact Bool.false_ne_true)]
    rw [hrec]
    rw [if_pos (by rw [HammingDecoder.flipBit_length]; exact hj)]
    exact HammingDecoder.flipBit_flipBit data j hj
  · intro t _
    obtain ⟨δ, hδ, hshift⟩ :=
      HammingDecoder.processBits_parity (HammingDecoder.toBits data) 1 ecc t
    have hsynp : HammingDecoder.syndromeOf (ecc ^^^ 2 ^ t) data = δ := by
      unfold HammingDecoder.syndromeOf HammingDecoder.Init
      unfold HammingDecoder.syndromeOf HammingDecoder.Init at hsyn
      rw [hshift, hsyn, Nat.zero_xor]
    unfold HammingDecoder.Process
    rw [hsynp]
    rcases hδ with h0 | h2
    · rw [h0, if_pos HammingDecoder.pow2test_zero]
    · rw [h2, if_pos (HammingDecoder.pow2test_two_pow t)]

/-- Witness for C4: the 4-byte payload `12 34 56 78` with its little-endian
CRC-32 (seed 5) appended and the matching ECC word 75, flipping data bit 13
and parity bit 3. -/
theorem c4_hamming_single_bit_witness :
    HammingDecoder.Process 75
        (HammingDecoder.flipBit [0x12, 0x34, 0x56, 0x78, 0xAA, 0xFE, 0xD7, 0x7D] 13) =
      [0x12, 0x34, 0x56, 0x78, 0xAA, 0xFE, 0xD7, 0x7D] ∧
    HammingDecoder.Process (75 ^^^ 2 ^ 3)
        [0x12, 0x34, 0x56, 0x78, 0xAA, 0xFE, 0xD7, 0x7D] =
      [0x12, 0x34, 0x56, 0x78, 0xAA, 0xFE, 0xD7, 0x7D] := by
  have h := c4_hamming_single_bit [0x12, 0x34, 0x56, 0x78, 0xAA, 0xFE, 0xD7, 0x7D]
    75 (by decide) (by decide) (by decide)
  exact ⟨h.1 13 (by decide), h.2 3 (by decide)⟩

/-! ### packet.h

`Packet<packet_size>`: the packed `QPSKPacket` struct is
`data[packet_size]` ++ `crc` (4 bytes) ++ `ecc` (2 bytes), accessed through
the `bytes_` union member.  The host is little-endian (the big-endian
byte-swaps in the source compile away), so the `crc` and `ecc` struct fields
read their storage bytes in little-endian order. -/

structure Packet where
  size : ℕ
  byte : ℕ
  seed : ℕ
  crcReg : ℕ
  bytes : List ℕ

namespace Packet

/-- `sizeof(QPSKPacket)` for `Packet<ps>` (the struct is packed). -/
def packetBytes (ps : ℕ) : ℕ := ps + 6

/-- `Packet::Init(crc_seed)`: store the seed and reset.  The union storage
is uninitialised memory; it is modelled as zeros (it is overwritten before
any observable read). -/
def Init (ps : ℕ) (crcSeed : ℕ) : Packet :=
  ⟨0, 1, crcSeed, 0xFFFFFFFF, List.replicate (packetBytes ps) 0⟩

/-- `Packet::Reset`. -/
def Reset (p : Packet) : Packet := { p with size := 0, byte := 1 }

/-- The storage rewrite performed by `Packet::Finalize`: the `ecc` field is
the little-endian `uint16_t` at offset `ps + 4`, and the Hamming decoder
runs in place over the data+crc region. -/
def finalizeBytes (ps : ℕ) (B : List ℕ) : List ℕ :=
  HammingDecoder.Process (B.getD (ps + 4) 0 + 256 * B.getD (ps + 5) 0)
    (B.take (ps + 4)) ++ B.drop (ps + 4)

/-- `Packet::Finalize`: byte-swap is a no-op on the little-endian host; run
the Hamming correction over data+crc with the `ecc` field as parity word,
then seed the CRC and process the data region. -/
def Finalize (ps : ℕ) (p : Packet) : Packet :=
  { p with
    bytes := finalizeBytes ps p.bytes,
    crcReg := Crc32.reg p.seed ((finalizeBytes ps p.bytes).take ps) }

/-- `Packet::PushByte(byte)`. -/
def PushByte (ps : ℕ) (p : Packet) (b : ℕ) : Packet :=
  if p.size < packetBytes ps then
    if p.size + 1 = packetBytes ps then
      Finalize ps { p with bytes := p.bytes.set p.size b, size := p.size + 1 }
    else { p with bytes := p.bytes.set p.size b, size := p.size + 1 }
  else p

/-- `Packet::WriteSymbol(symbol)`: `byte_` is a `uint32_t` shift register
whose sentinel bit `0x100` marks four accumulated symbols; the `PushByte`
argument is truncated to `uint8_t`. -/
def WriteSymbol (ps : ℕ) (p : Packet) (s : ℕ) : Packet :=
  if ((p.byte <<< 2 ||| s) % 2 ^ 32) &&& 0x100 ≠ 0 then
    { PushByte ps p (((p.byte <<< 2 ||| s) % 2 ^ 32) % 256) with byte := 1 }
  else { p with byte := (p.byte <<< 2 ||| s) % 2 ^ 32 }

/-- `Packet::full()`. -/
def full (ps : ℕ) (p : Packet) : Prop := p.size = packetBytes ps

/-- `Packet::calculated_crc()`. -/
def calculated_crc (p : Packet) : ℕ := Crc32.not32 p.crcReg

/-- `Packet::expected_crc()`: the little-endian host reads the four stored
CRC bytes directly (no byte swap). -/
def expected_crc (ps : ℕ) (p : Packet) : ℕ :=
  p.bytes.getD ps 0 + 256 * p.bytes.getD (ps + 1) 0 +
    65536 * p.bytes.getD (ps + 2) 0 + 16777216 * p.bytes.getD (ps + 3) 0

/-- `Packet::valid()`. -/
def valid (ps : ℕ) (p : Packet) : Prop :=
  full ps p ∧ calculated_crc p = expected_crc ps p

def writeSymbols (ps : ℕ) (p : Packet) (syms : List ℕ) : Packet :=
  syms.foldl (WriteSymbol ps) p

/-- Little-endian byte serialisation (modelled from the spec frame layout:
the encoder writes multi-byte fields as bytes). -/
def toBytesLE (k n : ℕ) : List ℕ := (List.range k).map (fun i => n / 256 ^ i % 256)

/-- The four 2-bit symbols of one byte, most significant first (spec:
symbols `s0 s1 s2 s3` form byte `(s0<<6)|(s1<<4)|(s2<<2)|s3`). -/
def byteSymbols (b : ℕ) : List ℕ :=
  [b >>> 6 &&& 3, b >>> 4 &&& 3, b >>> 2 &&& 3, b &&& 3]

/-- The symbol stream of a byte stream. -/
def streamSymbols (bytes : List ℕ) : List ℕ := bytes.flatMap byteSymbols

end Packet

theorem shiftLeft_or_eq (a b k : ℕ) (h : b < 2 ^ k) :
    (a <<< k) ||| b = a * 2 ^ k + b := by
  apply Nat.eq_of_testBit_eq
  intro j
  rw [Nat.mul_comm a (2 ^ k), Nat.testBit_or, Nat.testBit_shiftLeft,
    Nat.testBit_mul_pow_two_add a h j]
  by_cases hj : j < k
  · rw [if_pos hj]
    have : ¬ j ≥ k := by omega
    simp [this]
  · rw [if_neg hj]
    have hb : b.testBit j = false :=
      Nat.testBit_lt_two_pow
        (lt_of_lt_of_le h (Nat.pow_le_pow_right (by omega) (by omega)))
    have : j ≥ k := by omega
    simp [this, hb]

theorem and_two_pow_eq (v t : ℕ) :
    v &&& 2 ^ t = if v.testBit t then 2 ^ t else 0 := by
  rw [Nat.and_comm]
  by_cases h : v.testBit t = true
  · rw [if_pos h]
    rcases HammingDecoder.twoPow_and t v with h0 | h1
    · exfalso
      have ht : (2 ^ t &&& v).testBit t = true := by
        rw [Nat.testBit_and, Nat.testBit_two_pow_self, h]
        rfl
      rw [h0, Nat.zero_testBit] at ht
      exact Bool.noConfusion ht
    · exact h1
  · rw [if_neg h]
    rcases HammingDecoder.twoPow_and t v with h0 | h1
    · exact h0
    · exfalso
      have ht : (2 ^ t &&& v).testBit t = false := by
        rw [Nat.testBit_and, Nat.testBit_two_pow_self]
        simp only [Bool.not_eq_true] at h
        rw [h]
        rfl
      rw [h1, Nat.testBit_two_pow_self] at ht
      exact Bool.noConfusion ht

theorem and_256_eq (v : ℕ) (h : v < 512) :
    v &&& 256 = if 256 ≤ v then 256 else 0 := by
  have h256 : (256 : ℕ) = 2 ^ 8 := by norm_num
  rw [h256, and_two_pow_eq, Nat.testBit_to_div_mod]
  have h8 : (2 : ℕ) ^ 8 = 256 := by norm_num
  rw [h8]
  by_cases hge : 256 ≤ v
  · have : v / 256 = 1 := by omega
    rw [this, if_pos hge]
    simp
  · have : v / 256 = 0 := by omega
    rw [this, if_neg hge]
    simp

namespace Packet

theorem two_pow_32 : (2 : ℕ) ^ 32 = 4294967296 := by norm_num

theorem WriteSymbol_acc (ps : ℕ) (p : Packet) (s : ℕ)
    (hbyte : p.byte < 64) (hs : s < 4) :
    WriteSymbol ps p s = { p with byte := p.byte * 4 + s } := by
  have hv : (p.byte <<< 2 ||| s) % 2 ^ 32 = p.byte * 4 + s := by
    rw [shiftLeft_or_eq p.byte s 2 (by omega),
      show (2 : ℕ) ^ 2 = 4 from by norm_num]
    rw [Nat.mod_eq_of_lt (by rw [two_pow_32]; omega)]
  have h512 : p.byte * 4 + s < 512 := by omega
  unfold WriteSymbol
  rw [hv]
  rw [and_256_eq (p.byte * 4 + s) h512]
  rw [if_neg (show ¬ 256 ≤ p.byte * 4 + s by omega)]
  simp

theorem WriteSymbol_push (ps : ℕ) (p : Packet) (s : ℕ)
    (hbyte : 64 ≤ p.byte) (hbyte2 : p.byte < 128) (hs : s < 4) :
    WriteSymbol ps p s =
      { PushByte ps p ((p.byte * 4 + s) % 256) with byte := 1 } := by
  have hv : (p.byte <<< 2 ||| s) % 2 ^ 32 = p.byte * 4 + s := by
    rw [shiftLeft_or_eq p.byte s 2 (by omega),
      show (2 : ℕ) ^ 2 = 4 from by norm_num]
    rw [Nat.mod_eq_of_lt (by rw [two_pow_32]; omega)]
  have h512 : p.byte * 4 + s < 512 := by omega
  unfold WriteSymbol
  rw [hv]
  rw [and_256_eq (p.byte * 4 + s) h512]
  rw [if_pos (show 256 ≤ p.byte * 4 + s by omega)]
  simp

theorem PushByte_zero (ps : ℕ) (q : Packet) (hsz : q.size = 0) (b : ℕ) :
    PushByte ps q b = { q with bytes := q.bytes.set 0 b, size := 1 } := by
  unfold PushByte
  rw [hsz]
  rw [if_pos (show (0 : ℕ) < packetBytes ps from by unfold packetBytes; omega)]
  rw [if_neg (show ¬ (0 + 1 : ℕ) = packetBytes ps from by
    unfold packetBytes; omega)]

theorem or_pack (s0 s1 s2 s3 : ℕ) (h0 : s0 < 4) (h1 : s1 < 4) (h2 : s2 < 4)
    (h3 : s3 < 4) :
    s0 <<< 6 ||| s1 <<< 4 ||| s2 <<< 2 ||| s3 =
      s0 * 64 + s1 * 16 + s2 * 4 + s3 := by
  interval_cases s0 <;> interval_cases s1 <;> interval_cases s2 <;>
    interval_cases s3 <;> decide

/-- Pushing one byte as it happens between bytes of the symbol stream: after
the four symbols of a byte the shift register is back at 1. -/
def pushScrubbed (ps : ℕ) (p : Packet) (b : ℕ) : Packet :=
  { PushByte ps p b with byte := 1 }

def pushBytes (ps : ℕ) (p : Packet) (bytes : List ℕ) : Packet :=
  bytes.foldl (pushScrubbed ps) p

theorem PushByte_mid (ps : ℕ) (q : Packet) (b k : ℕ) (hsz : q.size = k)
    (h1 : k < packetBytes ps) (h2 : ¬ k + 1 = packetBytes ps) :
    PushByte ps q b = { q with bytes := q.bytes.set k b, size := k + 1 } := by
  unfold PushByte
  rw [hsz, if_pos h1, if_neg h2]

theorem PushByte_last (ps : ℕ) (q : Packet) (b k : ℕ) (hsz : q.size = k)
    (h2 : k + 1 = packetBytes ps) :
    PushByte ps q b =
      Finalize ps { q with bytes := q.bytes.set k b, size := k + 1 } := by
  unfold PushByte
  rw [hsz, if_pos (by omega), if_pos h2]

theorem pushScrubbed_byte (ps : ℕ) (p : Packet) (x b : ℕ) :
    { PushByte ps { p with byte := x } b with byte := 1 } =
      pushScrubbed ps p b := by
  cases p with
  | mk sz byt sd cr bs =>
      unfold pushScrubbed PushByte Finalize finalizeBytes
      dsimp only
      by_cases h1 : sz < packetBytes ps
      · by_cases h2 : sz + 1 = packetBytes ps
        · rw [if_pos h1, if_pos h1, if_pos h2, if_pos h2]
        · rw [if_pos h1, if_pos h1, if_neg h2, if_neg h2]
      · rw [if_neg h1, if_neg h1]

theorem byteSymbols_eq (b : ℕ) :
    byteSymbols b = [b / 64 % 4, b / 16 % 4, b / 4 % 4, b % 4] := by
  unfold byteSymbols
  rw [show (3 : ℕ) = 2 ^ 2 - 1 from by norm_num]
  rw [Nat.and_pow_two_sub_one_eq_mod, Nat.and_pow_two_sub_one_eq_mod,
    Nat.and_pow_two_sub_one_eq_mod, Nat.and_pow_two_sub_one_eq_mod]
  rw [Nat.shiftRight_eq_div_pow, Nat.shiftRight_eq_div_pow,
    Nat.shiftRight_eq_div_pow]

theorem writeSymbols_byte (ps : ℕ) (p : Packet) (b : ℕ) (hb : b < 256)
    (hbyte : p.byte = 1) :
    writeSymbols ps p (byteSymbols b) = pushScrubbed ps p b := by
  rw [byteSymbols_eq b]
  have h0 : b / 64 % 4 < 4 := Nat.mod_lt _ (by omega)
  have h1 : b / 16 % 4 < 4 := Nat.mod_lt _ (by omega)
  have h2 : b / 4 % 4 < 4 := Nat.mod_lt _ (by omega)
  have h3 : b % 4 < 4 := Nat.mod_lt _ (by omega)
  simp only [writeSymbols, List.foldl_cons, List.foldl_nil]
  rw [WriteSymbol_acc ps p (b / 64 % 4) (by rw [hbyte]; omega) h0, hbyte]
  rw [WriteSymbol_acc ps _ (b / 16 % 4)
    (by show 1 * 4 + b / 64 % 4 < 64; omega) h1]
  rw [WriteSymbol_acc ps _ (b / 4 % 4)
    (by show (1 * 4 + b / 64 % 4) * 4 + b / 16 % 4 < 64; omega) h2]
  rw [WriteSymbol_push ps _ (b % 4)
    (by show 64 ≤ ((1 * 4 + b / 64 % 4) * 4 + b / 16 % 4) * 4 + b / 4 % 4; omega)
    (by show ((1 * 4 + b / 64 % 4) * 4 + b / 16 % 4) * 4 + b / 4 % 4 < 128; omega)
    h3]
  rw [show ((((1 * 4 + b / 64 % 4) * 4 + b / 16 % 4) * 4 + b / 4 % 4) * 4 +
      b % 4) % 256 = b from by omega]
  exact pushScrubbed_byte ps p _ b

theorem writeSymbols_stream : ∀ (bytes : List ℕ) (ps : ℕ) (p : Packet),
    (∀ b ∈ bytes, b < 256) → p.byte = 1 →
    writeSymbols ps p (streamSymbols bytes) = pushBytes ps p bytes := by
  intro bytes
  induction bytes with
  | nil => intro ps p _ _; rfl
  | cons b rest ih =>
      intro ps p hb hbyte
      rw [show streamSymbols (b :: rest) = byteSymbols b ++ streamSymbols rest
        from by simp [streamSymbols]]
      unfold writeSymbols
      rw [List.foldl_append]
      have hby := writeSymbols_byte ps p b (hb b (by simp)) hbyte
      unfold writeSymbols at hby
      rw [hby]
      have hrest := ih ps (pushScrubbed ps p b)
        (fun x hx => hb x (by simp [hx])) rfl
      unfold writeSymbols at hrest
      rw [hrest]
      rfl

theorem pushBytes_fill : ∀ (stream : List ℕ) (ps k : ℕ) (p : Packet),
    p.size = k → k + stream.length = packetBytes ps → stream ≠ [] →
    pushBytes ps p stream =
      ⟨packetBytes ps, 1, p.seed,
        Crc32.reg p.seed
          ((finalizeBytes ps (Fifo.setSeq p.bytes k stream)).take ps),
        finalizeBytes ps (Fifo.setSeq p.bytes k stream)⟩ := by
  intro stream
  induction stream with
  | nil => intro ps k p _ _ hne; exact absurd rfl hne
  | cons b rest ih =>
      intro ps k p hsz hlen _
      by_cases hlast : rest = []
      · subst hlast
        have hk1 : k + 1 = packetBytes ps := by
          simp only [List.length_cons, List.length_nil] at hlen
          omega
        show pushScrubbed ps p b = _
        unfold pushScrubbed
        rw [PushByte_last ps p b k hsz hk1]
        unfold Finalize
        dsimp only
        rw [hk1]
        rfl
      · have hrest1 : 1 ≤ rest.length := by
          cases rest with
          | nil => exact absurd rfl hlast
          | cons c cs => simp
        simp only [List.length_cons] at hlen
        have hklt : k < packetBytes ps := by omega
        have hk1 : ¬ k + 1 = packetBytes ps := by omega
        have hstep : pushScrubbed ps p b =
            { p with bytes := p.bytes.set k b, size := k + 1, byte := 1 } := by
          unfold pushScrubbed
          rw [PushByte_mid ps p b k hsz hklt hk1]
        rw [show pushBytes ps p (b :: rest) =
          pushBytes ps (pushScrubbed ps p b) rest from rfl, hstep]
        rw [ih ps (k + 1)
          { p with bytes := p.bytes.set k b, size := k + 1, byte := 1 }
          rfl (by omega) hlast]
        rfl

end Packet

theorem setSeq_eq_self {α : Type} [Inhabited α] (xs d : List α)
    (h : d.length = xs.length) : Fifo.setSeq d 0 xs = xs := by
  apply List.ext_getElem
  · rw [Fifo.setSeq_length]; exact h
  · intro n h1 h2
    have h3 : n < xs.length := by simpa using h2
    have := Fifo.setSeq_getD xs d 0 (by omega) n h3
    rw [Nat.zero_add] at this
    rw [← List.getD_eq_getElem (Fifo.setSeq d 0 xs) default h1, this]
    simp

namespace Crc32

theorem shiftRight_le (x k : ℕ) : x >>> k ≤ x := by
  rw [Nat.shiftRight_eq_div_pow]
  exact Nat.div_le_self _ _

theorem tableEntryStep_lt (x : ℕ) (h : x < 2 ^ 32) :
    tableEntryStep x < 2 ^ 32 := by
  unfold tableEntryStep
  split
  · apply Nat.xor_lt_two_pow
    · have := shiftRight_le x 1
      omega
    · norm_num [kPolynomial]
  · have := shiftRight_le x 1
    omega

theorem ComputeTableEntry_lt (x : ℕ) (h : x < 2 ^ 32) :
    ComputeTableEntry x < 2 ^ 32 := by
  have hgen : ∀ (n : ℕ) (y : ℕ), y < 2 ^ 32 → tableEntryStep^[n] y < 2 ^ 32 := by
    intro n
    induction n with
    | zero => intro y hy; simpa using hy
    | succ m ih =>
        intro y hy
        rw [Function.iterate_succ_apply]
        exact ih _ (tableEntryStep_lt y hy)
  exact hgen 8 x h

theorem ProcessByte_lt (c b : ℕ) (hc : c < 2 ^ 32) (hb : b < 256) :
    ProcessByte c b < 2 ^ 32 := by
  unfold ProcessByte
  apply Nat.xor_lt_two_pow
  · have := shiftRight_le c 8
    omega
  · apply ComputeTableEntry_lt
    have h1 : c &&& 0xFF < 256 := by
      rw [show (0xFF : ℕ) = 2 ^ 8 - 1 from by norm_num,
        Nat.and_pow_two_sub_one_eq_mod]
      exact Nat.mod_lt _ (by omega)
    have h2 : (c &&& 0xFF) ^^^ b < 256 := by
      have := Nat.xor_lt_two_pow (n := 8) (by simpa using h1) (by simpa using hb)
      simpa using this
    omega

theorem reg_lt (seed : ℕ) (data : List ℕ) (hs : seed < 2 ^ 32)
    (hd : ∀ b ∈ data, b < 256) : reg seed data < 2 ^ 32 := by
  have hgen : ∀ (l : List ℕ) (c : ℕ), c < 2 ^ 32 → (∀ b ∈ l, b < 256) →
      l.foldl ProcessByte c < 2 ^ 32 := by
    intro l
    induction l with
    | nil => intro c hc _; simpa using hc
    | cons b rest ih =>
        intro c hc hl
        rw [List.foldl_cons]
        exact ih _ (ProcessByte_lt c b hc (hl b (by simp)))
          (fun x hx => hl x (by simp [hx]))
  unfold reg
  apply hgen data _ _ hd
  unfold not32
  apply Nat.xor_lt_two_pow hs
  norm_num

theorem crcOf_lt (seed : ℕ) (data : List ℕ) (hs : seed < 2 ^ 32)
    (hd : ∀ b ∈ data, b < 256) : crcOf seed data < 2 ^ 32 := by
  unfold crcOf not32
  apply Nat.xor_lt_two_pow (reg_lt seed data hs hd)
  norm_num

end Crc32

namespace Packet

theorem toBytesLE_length (k n : ℕ) : (toBytesLE k n).length = k := by
  simp [toBytesLE]

theorem toBytesLE_lt (k n : ℕ) : ∀ b ∈ toBytesLE k n, b < 256 := by
  intro b hb
  simp only [toBytesLE, List.mem_map] at hb
  obtain ⟨i, _, hi⟩ := hb
  rw [← hi]
  exact Nat.mod_lt _ (by omega)

theorem toBytesLE_two (n : ℕ) : toBytesLE 2 n = [n % 256, n / 256 % 256] := by
  unfold toBytesLE
  rw [show List.range 2 = [0, 1] from rfl]
  simp

theorem toBytesLE_four (n : ℕ) :
    toBytesLE 4 n =
      [n % 256, n / 256 % 256, n / 65536 % 256, n / 16777216 % 256] := by
  unfold toBytesLE
  rw [show List.range 4 = [0, 1, 2, 3] from rfl]
  simp

end Packet

namespace HammingDecoder

theorem Process_of_syndrome_zero (e : ℕ) (X : List ℕ)
    (h : syndromeOf e X = 0) : Process e X = X := by
  unfold Process
  rw [h, if_pos pow2test_zero]

end HammingDecoder

/-- Claim C5: from a freshly `Reset` byte register, writing four symbols
`s0 s1 s2 s3` (each `< 4`) pushes no byte during the first three symbols and
exactly one byte after the fourth, equal to `(s0<<6)|(s1<<4)|(s2<<2)|s3`. -/
theorem c5_write_symbol_packing (ps : ℕ) (p : Packet)
    (hwf : p.bytes.length = Packet.packetBytes ps)
    (s0 s1 s2 s3 : ℕ) (h0 : s0 < 4) (h1 : s1 < 4) (h2 : s2 < 4) (h3 : s3 < 4) :
    (Packet.writeSymbols ps (Packet.Reset p) [s0]).size = 0 ∧
    (Packet.writeSymbols ps (Packet.Reset p) [s0, s1]).size = 0 ∧
    (Packet.writeSymbols ps (Packet.Reset p) [s0, s1, s2]).size = 0 ∧
    (Packet.writeSymbols ps (Packet.Reset p) [s0, s1, s2, s3]).size = 1 ∧
    (Packet.writeSymbols ps (Packet.Reset p) [s0, s1, s2, s3]).bytes.getD 0 0 =
      s0 <<< 6 ||| s1 <<< 4 ||| s2 <<< 2 ||| s3 := by
  have hr : (Packet.Reset p).byte = 1 := rfl
  have w1 : Packet.WriteSymbol ps (Packet.Reset p) s0 =
      { Packet.Reset p with byte := 1 * 4 + s0 } := by
    rw [Packet.WriteSymbol_acc ps (Packet.Reset p) s0 (by rw [hr]; omega) h0, hr]
  have w2 : Packet.WriteSymbol ps { Packet.Reset p with byte := 1 * 4 + s0 } s1 =
      { Packet.Reset p with byte := (1 * 4 + s0) * 4 + s1 } := by
    rw [Packet.WriteSymbol_acc ps _ s1 (by show 1 * 4 + s0 < 64; omega) h1]
  have w3 : Packet.WriteSymbol ps
      { Packet.Reset p with byte := (1 * 4 + s0) * 4 + s1 } s2 =
      { Packet.Reset p with byte := ((1 * 4 + s0) * 4 + s1) * 4 + s2 } := by
    rw [Packet.WriteSymbol_acc ps _ s2
      (by show (1 * 4 + s0) * 4 + s1 < 64; omega) h2]
  have w4 : Packet.WriteSymbol ps
      { Packet.Reset p with byte := ((1 * 4 + s0) * 4 + s1) * 4 + s2 } s3 =
      { Packet.PushByte ps { Packet.Reset p with
          byte := ((1 * 4 + s0) * 4 + s1) * 4 + s2 }
          (((((1 * 4 + s0) * 4 + s1) * 4 + s2) * 4 + s3) % 256) with byte := 1 } := by
    rw [Packet.WriteSymbol_push ps _ s3
      (by show 64 ≤ ((1 * 4 + s0) * 4 + s1) * 4 + s2; omega)
      (by show ((1 * 4 + s0) * 4 + s1) * 4 + s2 < 128; omega) h3]
  have hmod : ((((1 * 4 + s0) * 4 + s1) * 4 + s2) * 4 + s3) % 256 =
      s0 * 64 + s1 * 16 + s2 * 4 + s3 := by omega
  have hpush := Packet.PushByte_zero ps
    { Packet.Reset p with byte := ((1 * 4 + s0) * 4 + s1) * 4 + s2 } rfl
    (s0 * 64 + s1 * 16 + s2 * 4 + s3)
  simp only [Packet.writeSymbols, List.foldl_cons, List.foldl_nil]
  rw [w1, w2, w3, w4, hmod, hpush]
  refine ⟨rfl, rfl, rfl, rfl, ?_⟩
  simp only
  rw [getD_set_self _ _ _ _ (by
      show 0 < p.bytes.length
      rw [hwf]; unfold Packet.packetBytes; omega),
    Packet.or_pack s0 s1 s2 s3 h0 h1 h2 h3]

/-- A frame for `packet_size = 4` whose CRC field is stored big-endian, as
the claim describes: payload `12 34 56 78`, seed 5, the CRC-32 bytes in
big-endian order, and the matching 16-bit ECC word 36 (its Hamming syndrome
over the data+CRC region is zero). -/
def c3streamBE : List ℕ :=
  [0x12, 0x34, 0x56, 0x78, 0x7D, 0xD7, 0xFE, 0xAA, 36, 0]

/-- The packet after feeding `c3streamBE` as 2-bit symbols. -/
def c3packetBE : Packet :=
  Packet.writeSymbols 4 (Packet.Reset (Packet.Init 4 5))
    (Packet.streamSymbols c3streamBE)

/-- Claim C3, counterexample to the big-endian CRC layout: the CRC-32 of
payload `12 34 56 78` with seed 5 is `0x7DD7FEAA`; storing it big-endian
(with the matching ECC word, syndrome zero) and feeding the frame as 2-bit
symbols leaves the packet full but NOT valid, because `expected_crc()` reads
the stored CRC bytes little-endian on the little-endian host. -/
theorem c3_crc_big_endian_counterexample :
    Crc32.crcOf 5 [0x12, 0x34, 0x56, 0x78] = 0x7DD7FEAA ∧
    c3streamBE =
      [0x12, 0x34, 0x56, 0x78] ++ [0x7D, 0xD7, 0xFE, 0xAA] ++
        Packet.toBytesLE 2 36 ∧
    HammingDecoder.syndromeOf 36
      [0x12, 0x34, 0x56, 0x78, 0x7D, 0xD7, 0xFE, 0xAA] = 0 ∧
    Packet.full 4 c3packetBE ∧ ¬ Packet.valid 4 c3packetBE := by
  refine ⟨by decide, by decide, by decide, ?_, ?_⟩
  · show c3packetBE.size = Packet.packetBytes 4
    decide
  · intro hv
    have h := hv.2
    rw [show Packet.calculated_crc c3packetBE = 2111307434 from by decide,
      show Packet.expected_crc 4 c3packetBE = 2868828029 from by decide] at h
    exact absurd h (by decide)

/-- Claim C3 (corrected: the CRC field of the frame is stored little-endian,
not big-endian — `expected_crc()` reads the four stored bytes in
little-endian order on the little-endian host, the big-endian byte swap
compiling away).  For every `packet_size`-byte payload of bytes and every
32-bit seed, feeding `data ++ crc32_le ++ ecc16_le` (with the CRC-32 of the
data computed from that seed and a matching ECC word, i.e. one of zero
Hamming syndrome over the data+CRC region) as 2-bit symbols to
`Packet::WriteSymbol` after `Reset` leaves the packet `full` and `valid()`
true. -/
theorem c3_crc_roundtrip (ps seed ecc c : ℕ) (data region stream : List ℕ)
    (hseed : seed < 2 ^ 32)
    (hlen : data.length = ps)
    (hdata : ∀ b ∈ data, b < 256)
    (hecc : ecc < 2 ^ 16)
    (hc : c = Crc32.crcOf seed data)
    (hregion : region = data ++ Packet.toBytesLE 4 c)
    (hsynd : HammingDecoder.syndromeOf ecc region = 0)
    (hstream : stream = region ++ Packet.toBytesLE 2 ecc) :
    Packet.full ps
      (Packet.writeSymbols ps (Packet.Reset (Packet.Init ps seed))
        (Packet.streamSymbols stream)) ∧
    Packet.valid ps
      (Packet.writeSymbols ps (Packet.Reset (Packet.Init ps seed))
        (Packet.streamSymbols stream)) := by
  have hreg_len : region.length = ps + 4 := by
    rw [hregion, List.length_append, Packet.toBytesLE_length, hlen]
  have hstream_len : stream.length = Packet.packetBytes ps := by
    rw [hstream, List.length_append, hreg_len, Packet.toBytesLE_length]
    show ps + 4 + 2 = ps + 6
    omega
  have hbytes : ∀ b ∈ stream, b < 256 := by
    intro b hb
    rw [hstream, hregion] at hb
    simp only [List.mem_append] at hb
    rcases hb with (hb | hb) | hb
    · exact hdata b hb
    · exact Packet.toBytesLE_lt 4 c b hb
    · exact Packet.toBytesLE_lt 2 ecc b hb
  have hne : stream ≠ [] := by
    intro h
    rw [h] at hstream_len
    simp only [List.length_nil] at hstream_len
    have hp6 : Packet.packetBytes ps = ps + 6 := rfl
    omega
  have h1 : Packet.writeSymbols ps (Packet.Reset (Packet.Init ps seed))
      (Packet.streamSymbols stream) =
      Packet.pushBytes ps (Packet.Reset (Packet.Init ps seed)) stream :=
    Packet.writeSymbols_stream stream ps _ hbytes rfl
  have h2 := Packet.pushBytes_fill stream ps 0
    (Packet.Reset (Packet.Init ps seed)) rfl
    (by rw [Nat.zero_add, hstream_len]) hne
  have hB : Fifo.setSeq (Packet.Reset (Packet.Init ps seed)).bytes 0 stream
      = stream := by
    apply setSeq_eq_self
    show (List.replicate (Packet.packetBytes ps) 0).length = stream.length
    rw [List.length_replicate, hstream_len]
  rw [hB] at h2
  have htake : stream.take (ps + 4) = region := by
    rw [hstream]
    exact List.take_left' hreg_len
  have hdrop : stream.drop (ps + 4) = Packet.toBytesLE 2 ecc := by
    rw [hstream]
    exact List.drop_left' hreg_len
  have hg4 : stream.getD (ps + 4) 0 = ecc % 256 := by
    rw [hstream, List.getD_append_right region _ 0 (ps + 4) (by omega),
      hreg_len, Nat.sub_self, Packet.toBytesLE_two]
    rfl
  have hg5 : stream.getD (ps + 5) 0 = ecc / 256 % 256 := by
    rw [hstream, List.getD_append_right region _ 0 (ps + 5) (by omega),
      hreg_len, show ps + 5 - (ps + 4) = 1 from by omega, Packet.toBytesLE_two]
    rfl
  have heccrec : ecc % 256 + 256 * (ecc / 256 % 256) = ecc := by
    have h16 : (2 : ℕ) ^ 16 = 65536 := by norm_num
    rw [h16] at hecc
    omega
  have hfin : Packet.finalizeBytes ps stream = stream := by
    unfold Packet.finalizeBytes
    rw [hg4, hg5, htake, hdrop, heccrec,
      HammingDecoder.Process_of_syndrome_zero ecc region hsynd, ← hstream]
  rw [h1, h2, hfin]
  have htakeps : stream.take ps = data := by
    rw [hstream, hregion, List.append_assoc]
    exact List.take_left' hlen
  rw [htakeps]
  refine ⟨rfl, rfl, ?_⟩
  show Crc32.not32 (Crc32.reg seed data) =
    stream.getD ps 0 + 256 * stream.getD (ps + 1) 0 +
      65536 * stream.getD (ps + 2) 0 + 16777216 * stream.getD (ps + 3) 0
  have hg0 : stream.getD ps 0 = c % 256 := by
    rw [hstream, hregion, List.append_assoc,
      List.getD_append_right data _ 0 ps (by omega), hlen, Nat.sub_self,
      List.getD_append (Packet.toBytesLE 4 c) (Packet.toBytesLE 2 ecc) 0 0
        (by rw [Packet.toBytesLE_length]; omega),
      Packet.toBytesLE_four]
    rfl
  have hg1 : stream.getD (ps + 1) 0 = c / 256 % 256 := by
    rw [hstream, hregion, List.append_assoc,
      List.getD_append_right data _ 0 (ps + 1) (by omega), hlen,
      show ps + 1 - ps = 1 from by omega,
      List.getD_append (Packet.toBytesLE 4 c) (Packet.toBytesLE 2 ecc) 0 1
        (by rw [Packet.toBytesLE_length]; omega),
      Packet.toBytesLE_four]
    rfl
  have hg2 : stream.getD (ps + 2) 0 = c / 65536 % 256 := by
    rw [hstream, hregion, List.append_assoc,
      List.getD_append_right data _ 0 (ps + 2) (by omega), hlen,
      show ps + 2 - ps = 2 from by omega,
      List.getD_append (Packet.toBytesLE 4 c) (Packet.toBytesLE 2 ecc) 0 2
        (by rw [Packet.toBytesLE_length]; omega),
      Packet.toBytesLE_four]
    rfl
  have hg3 : stream.getD (ps + 3) 0 = c / 16777216 % 256 := by
    rw [hstream, hregion, List.append_assoc,
      List.getD_append_right data _ 0 (ps + 3) (by omega), hlen,
      show ps + 3 - ps = 3 from by omega,
      List.getD_append (Packet.toBytesLE 4 c) (Packet.toBytesLE 2 ecc) 0 3
        (by rw [Packet.toBytesLE_length]; omega),
      Packet.toBytesLE_four]
    rfl
  rw [hg0, hg1, hg2, hg3]
  have hc32 : c < 4294967296 := by
    have h := Crc32.crcOf_lt seed data hseed hdata
    rw [← hc, Packet.two_pow_32] at h
    exact h
  have hnot : Crc32.not32 (Crc32.reg seed data) = c := by
    rw [hc]
    rfl
  rw [hnot]
  omega

/-- Witness for C3 at `ps = 4`, payload `12 34 56 78`, seed 5: the matching
little-endian frame (ECC word 75) fills the packet and validates. -/
theorem c3_crc_roundtrip_witness :
    Packet.full 4
      (Packet.writeSymbols 4 (Packet.Reset (Packet.Init 4 5))
        (Packet.streamSymbols
          (([0x12, 0x34, 0x56, 0x78] ++
            Packet.toBytesLE 4 (Crc32.crcOf 5 [0x12, 0x34, 0x56, 0x78])) ++
            Packet.toBytesLE 2 75))) ∧
    Packet.valid 4
      (Packet.writeSymbols 4 (Packet.Reset (Packet.Init 4 5))
        (Packet.streamSymbols
          (([0x12, 0x34, 0x56, 0x78] ++
            Packet.toBytesLE 4 (Crc32.crcOf 5 [0x12, 0x34, 0x56, 0x78])) ++
            Packet.toBytesLE 2 75))) :=
  c3_crc_roundtrip 4 5 75 (Crc32.crcOf 5 [0x12, 0x34, 0x56, 0x78])
    [0x12, 0x34, 0x56, 0x78]
    ([0x12, 0x34, 0x56, 0x78] ++
      Packet.toBytesLE 4 (Crc32.crcOf 5 [0x12, 0x34, 0x56, 0x78]))
    (([0x12, 0x34, 0x56, 0x78] ++
      Packet.toBytesLE 4 (Crc32.crcOf 5 [0x12, 0x34, 0x56, 0x78])) ++
      Packet.toBytesLE 2 75)
    (by decide) rfl (by decide) (by decide) rfl rfl (by decide) rfl

/-! ### correlator.h

`Correlator<symbol_duration>`: floats idealised as exact rationals.  The
alignment sequence is `{2, 1}` with `kLength = 2`; `kRipeAge` and
`kPeakThreshold` are both `symbol_duration * kLength / 2` (the float
arithmetic is exact there). -/

structure Correlator (α : Type) (M : ℕ) where
  iHistory : Bay α M 2
  qHistory : Bay α M 2
  correlationHistory : Window α 3
  age : ℕ
  maximum : α
  correlation : α
  tilt : α

namespace Correlator

variable {α : Type} [LinearOrderedField α] {M : ℕ}

def kLength : ℕ := 2

def kAlignmentSequence : List ℕ := [2, 1]

def kRipeAge (M : ℕ) : ℕ := M * kLength / 2

def kPeakThreshold (α : Type) [LinearOrderedField α] (M : ℕ) : α :=
  ((M * kLength : ℕ) : α) / 2

/-- `Correlator::Reset`. -/
def Reset (α : Type) [LinearOrderedField α] (M : ℕ) : Correlator α M :=
  ⟨Bay.Init α M 2, Bay.Init α M 2, Window.Init α 3, 0, 0, 0, 1/2⟩

/-- `Correlator::Init`. -/
def Init (α : Type) [LinearOrderedField α] (M : ℕ) : Correlator α M :=
  Reset α M

/-- One iteration of the correlation loop in `Correlator::Process`. -/
def corrTerm (ih qh : Bay α M 2) (i : ℕ) : α :=
  (if kAlignmentSequence.getD (kLength - 1 - i) 0 &&& 2 ≠ 0
    then (ih.get i).sum else -(ih.get i).sum) +
  (if kAlignmentSequence.getD (kLength - 1 - i) 0 &&& 1 ≠ 0
    then (qh.get i).sum else -(qh.get i).sum)

/-- The correlation computed by `Process` (zero while the histories are not
yet ripe). -/
def corrValue (age' : ℕ) (ih qh : Bay α M 2) : α :=
  if kRipeAge M ≤ age' then corrTerm ih qh 0 + corrTerm ih qh 1 else 0

/-- The peak-detector maximum update in `Process`. -/
def maxUpdate (m corr : α) : α :=
  if corr < 0 then 0 else if m < corr then corr else m

/-- The local-maximum test in `Process`. -/
def peakFlag (M : ℕ) (ch : Window α 3) (m : α) : Bool :=
  decide (ch.get 1 = m) && decide (ch.get 0 < m) &&
    decide (kPeakThreshold α M ≤ m)

/-- Centre-sample sign check against the last alignment symbol (i path). -/
def iCorrelated (ih : Bay α M 2) : Bool :=
  if kAlignmentSequence.getD (kLength - 1) 0 &&& 2 ≠ 0
    then decide (0 < (ih.get 0).get (M / 2))
    else decide ((ih.get 0).get (M / 2) < 0)

/-- Centre-sample sign check against the last alignment symbol (q path). -/
def qCorrelated (qh : Bay α M 2) : Bool :=
  if kAlignmentSequence.getD (kLength - 1) 0 &&& 1 ≠ 0
    then decide (0 < (qh.get 0).get (M / 2))
    else decide ((qh.get 0).get (M / 2) < 0)

/-- `Correlator::Process`. -/
def Process (c : Correlator α M) (iSample qSample : α) :
    Correlator α M × Bool :=
  let ih := c.iHistory.Write iSample
  let qh := c.qHistory.Write qSample
  let corr := corrValue (c.age + 1) ih qh
  let m := maxUpdate c.maximum corr
  let ch := c.correlationHistory.Write corr
  let peak := peakFlag M ch m
  let t := if peak = true
    then 1/2 * ((ch.get 1 - ch.get 2) - (ch.get 1 - ch.get 0)) /
      ((ch.get 1 - ch.get 2) + (ch.get 1 - ch.get 0))
    else c.tilt
  (⟨ih, qh, ch, c.age + 1, m, corr, t⟩,
    peak && iCorrelated ih && qCorrelated qh)

/-- Successive `Process` calls, collecting the returned flags. -/
def processAll (c : Correlator α M) :
    List (α × α) → Correlator α M × List Bool
  | [] => (c, [])
  | s :: rest =>
      ((processAll (Process c s.1 s.2).1 rest).1,
        (Process c s.1 s.2).2 :: (processAll (Process c s.1 s.2).1 rest).2)

theorem Process_return (c : Correlator α M) (iS qS : α) :
    (Process c iS qS).2 =
      (peakFlag M (Process c iS qS).1.correlationHistory
          (Process c iS qS).1.maximum &&
        iCorrelated (Process c iS qS).1.iHistory &&
        qCorrelated (Process c iS qS).1.qHistory) := rfl

theorem return_iff (M : ℕ) (ch : Window α 3) (m : α) (ih qh : Bay α M 2) :
    (peakFlag M ch m && iCorrelated ih && qCorrelated qh) = true ↔
      (ch.get 1 = m ∧ ch.get 0 < m ∧ kPeakThreshold α M ≤ m ∧
        (ih.get 0).get (M / 2) < 0 ∧ 0 < (qh.get 0).get (M / 2)) := by
  have hsym2 : ¬ (kAlignmentSequence.getD (kLength - 1) 0 &&& 2 ≠ 0) := by
    decide
  have hsym1 : kAlignmentSequence.getD (kLength - 1) 0 &&& 1 ≠ 0 := by decide
  unfold peakFlag iCorrelated qCorrelated
  rw [if_neg hsym2, if_pos hsym1]
  simp only [Bool.and_eq_true, decide_eq_true_iff]
  tauto

theorem processAll_unripe (M : ℕ) (hM : 0 < M) :
    ∀ (ps : List (α × α)) (c : Correlator α M),
      c.age + ps.length < kRipeAge M → c.maximum = 0 →
      ∀ b ∈ (processAll c ps).2, b = false := by
  intro ps
  induction ps with
  | nil =>
      intro c _ _ b hb
      simp [processAll] at hb
  | cons s rest ih =>
      intro c hlen hmax b hb
      simp only [List.length_cons] at hlen
      have hcorr : corrValue (c.age + 1) (c.iHistory.Write s.1)
          (c.qHistory.Write s.2) = 0 := by
        unfold corrValue
        rw [if_neg (by omega)]
      have hm : maxUpdate c.maximum (corrValue (c.age + 1)
          (c.iHistory.Write s.1) (c.qHistory.Write s.2)) = 0 := by
        rw [hcorr, hmax]
        unfold maxUpdate
        simp
      have hthr : ¬ (kPeakThreshold α M ≤ (0:α)) := by
        push_neg
        unfold kPeakThreshold
        have h1 : 0 < M * kLength := by unfold kLength; omega
        have h2 : (0:α) < ((M * kLength : ℕ) : α) := by exact_mod_cast h1
        positivity
      have hret : (Process c s.1 s.2).2 = false := by
        rw [Process_return]
        have hmm : (Process c s.1 s.2).1.maximum = 0 := by
          show maxUpdate c.maximum (corrValue (c.age + 1)
            (c.iHistory.Write s.1) (c.qHistory.Write s.2)) = 0
          exact hm
        have hpf : peakFlag M (Process c s.1 s.2).1.correlationHistory
            (Process c s.1 s.2).1.maximum = false := by
          rw [hmm]
          unfold peakFlag
          rw [decide_eq_false hthr]
          simp
        rw [hpf]
        simp
      rw [show (processAll c (s :: rest)).2 =
        (Process c s.1 s.2).2 :: (processAll (Process c s.1 s.2).1 rest).2
        from rfl] at hb
      rcases List.mem_cons.mp hb with h | h
      · rw [hret] at h
        exact h
      · refine ih (Process c s.1 s.2).1 ?_ ?_ b h
        · show c.age + 1 + rest.length < kRipeAge M
          omega
        · show maxUpdate c.maximum (corrValue (c.age + 1)
            (c.iHistory.Write s.1) (c.qHistory.Write s.2)) = 0
          exact hm

end Correlator

/-- Claim C8 (corrected): the value returned by `Correlator::Process` is
`true` exactly when the peak conditions of the claim hold — the previous
correlation (`correlation_history_[1]`) equals the running maximum, the
newest correlation sits below it, and the maximum reaches the threshold
`M * kLength / 2` — AND, additionally, the centre samples of the newest
i/q windows carry the signs demanded by the last alignment symbol (i
negative, q positive); the claim's "exactly when (a), (b), (c)" omits the
sign checks.  Ripeness as in the claim: during the first `kRipeAge - 1`
samples after `Reset` every call returns `false`. -/
theorem c8_correlator_peak (M : ℕ) (hM : 0 < M) (c : Correlator ℚ M)
    (iS qS : ℚ) (ps : List (ℚ × ℚ))
    (hlen : ps.length < Correlator.kRipeAge M) :
    ((Correlator.Process c iS qS).2 = true ↔
      ((Correlator.Process c iS qS).1.correlationHistory.get 1 =
          (Correlator.Process c iS qS).1.maximum ∧
        (Correlator.Process c iS qS).1.correlationHistory.get 0 <
          (Correlator.Process c iS qS).1.maximum ∧
        Correlator.kPeakThreshold ℚ M ≤ (Correlator.Process c iS qS).1.maximum ∧
        ((Correlator.Process c iS qS).1.iHistory.get 0).get (M / 2) < 0 ∧
        0 < ((Correlator.Process c iS qS).1.qHistory.get 0).get (M / 2))) ∧
    ∀ b ∈ (Correlator.processAll (Correlator.Reset ℚ M) ps).2, b = false := by
  constructor
  · rw [Correlator.Process_return]
    exact Correlator.return_iff M _ _ _ _
  · exact Correlator.processAll_unripe M hM ps (Correlator.Reset ℚ M)
      (by show 0 + ps.length < Correlator.kRipeAge M; omega) rfl

/-- Witness for C8 at `M = 2`, one sample `(1, 0)` after reset. -/
theorem c8_correlator_peak_witness :
    0 < 2 ∧ ([((1:ℚ), (0:ℚ))]).length < Correlator.kRipeAge 2 ∧
    (((Correlator.Process (Correlator.Reset ℚ 2) 1 0).2 = true ↔
      ((Correlator.Process (Correlator.Reset ℚ 2) 1 0).1.correlationHistory.get 1 =
          (Correlator.Process (Correlator.Reset ℚ 2) 1 0).1.maximum ∧
        (Correlator.Process (Correlator.Reset ℚ 2) 1 0).1.correlationHistory.get 0 <
          (Correlator.Process (Correlator.Reset ℚ 2) 1 0).1.maximum ∧
        Correlator.kPeakThreshold ℚ 2 ≤
          (Correlator.Process (Correlator.Reset ℚ 2) 1 0).1.maximum ∧
        ((Correlator.Process (Correlator.Reset ℚ 2) 1 0).1.iHistory.get 0).get
          (2 / 2) < 0 ∧
        0 < ((Correlator.Process (Correlator.Reset ℚ 2) 1 0).1.qHistory.get 0).get
          (2 / 2))) ∧
    ∀ b ∈ (Correlator.processAll (Correlator.Reset ℚ 2)
      [((1:ℚ), (0:ℚ))]).2, b = false) :=
  ⟨by decide, by decide,
    c8_correlator_peak 2 (by decide) (Correlator.Reset ℚ 2) 1 0
      [((1:ℚ), (0:ℚ))] (by decide)⟩

/-- The correlator state (`M = 2`) after the four samples
`(-1,-1), (-1,-1), (-1,0), (-1,0)`. -/
def c8state : Correlator ℚ 2 :=
  (Correlator.processAll (Correlator.Reset ℚ 2)
    [(-1, -1), (-1, -1), (-1, 0), (-1, 0)]).1

/-- The fifth `Process` call on that state, with sample `(-1, -1)`. -/
def c8step : Correlator ℚ 2 × Bool := Correlator.Process c8state (-1) (-1)

/-- Claim C8, counterexample to "reports a peak exactly when (a), (b), (c)":
at the fifth sample all three of the claim's conditions hold — the previous
correlation equals the running maximum, the correlation just turned down,
the maximum reaches the threshold, and at least `kRipeAge` samples have been
written since reset — yet `Process` returns `false`, because the centre
sample of the newest q window is not positive as the last alignment symbol
demands. -/
theorem c8_claim_conditions_insufficient :
    c8step.1.correlationHistory.get 1 = c8step.1.maximum ∧
    c8step.1.correlationHistory.get 0 < c8step.1.maximum ∧
    Correlator.kPeakThreshold ℚ 2 ≤ c8step.1.maximum ∧
    Correlator.kRipeAge 2 ≤ c8step.1.age ∧
    c8step.2 = false :=
  of_decide_eq_true (by with_unfolding_all rfl)

/-! ### one_pole.h and pll.h

Floats are idealised as exact reals here because `OnePole::Factor` calls
`std::exp`. -/

/-- `kPi` from `util.h` (the float literal `3.141592654f`). -/
def kPi : ℝ := 3.141592654

structure OnePole where
  factor : ℝ
  lp : ℝ
  hp : ℝ

namespace OnePole

/-- `OnePole::Factor`. -/
noncomputable def Factor (freq : ℝ) : ℝ := 1 - Real.exp (-2 * kPi * freq)

/-- `OnePole::Init`. -/
noncomputable def Init (freq : ℝ) : OnePole := ⟨Factor freq, 0, 0⟩

/-- `OnePole::Process` state update (`OnePoleLowpass::Process` returns the
new `lp_`). -/
def Process (o : OnePole) (input : ℝ) : OnePole :=
  ⟨o.factor, o.lp + o.factor * (input - o.lp),
    input - (o.lp + o.factor * (input - o.lp))⟩

end OnePole

structure PhaseLockedLoop where
  nominal : ℝ
  phaseIncrement : ℝ
  phase : ℝ
  phaseError : ℝ
  lpf : OnePole

namespace PhaseLockedLoop

/-- `PhaseLockedLoop::Reset`. -/
def Reset (p : PhaseLockedLoop) : PhaseLockedLoop :=
  { p with phaseIncrement := p.nominal, phase := 0, phaseError := 0 }

/-- `PhaseLockedLoop::Init`: store the nominal frequency, `Reset`, and
initialise the error lowpass at `normalized_frequency / 32` (fields holding
uninitialised memory before being overwritten are modelled as 0). -/
noncomputable def Init (freq : ℝ) : PhaseLockedLoop :=
  Reset ⟨freq, 0, 0, 0, OnePole.Init (freq / 32)⟩

/-- `PhaseLockedLoop::Sync`. -/
def Sync (p : PhaseLockedLoop) : PhaseLockedLoop :=
  { p with phase := 0, phaseError := 0 }

/-- `PhaseLockedLoop::step`. -/
def step (p : PhaseLockedLoop) : ℝ := p.phaseIncrement

/-- `PhaseLockedLoop::Process`. -/
noncomputable def Process (p : PhaseLockedLoop) (e : ℝ) : PhaseLockedLoop :=
  { p with
    lpf := p.lpf.Process e
    phaseError := (p.lpf.Process e).lp
    phaseIncrement := Clamp (p.phaseIncrement - (p.lpf.Process e).lp / 4096) 0 1
    phase := FractionalPart (p.phase +
      Clamp (p.phaseIncrement - (p.lpf.Process e).lp / 4096) 0 1 -
      (p.lpf.Process e).lp / 16) }

noncomputable def processList (p : PhaseLockedLoop) (es : List ℝ) :
    PhaseLockedLoop :=
  es.foldl Process p

/-- State invariant preserved by `Process`: the nominal frequency is never
touched, the phase stays in (-1, 1), the phase increment stays in [0, 1]. -/
def Inv (f : ℝ) (p : PhaseLockedLoop) : Prop :=
  p.nominal = f ∧ -1 < p.phase ∧ p.phase < 1 ∧
    0 ≤ p.phaseIncrement ∧ p.phaseIncrement ≤ 1

theorem Inv_Process (f : ℝ) (p : PhaseLockedLoop) (e : ℝ) (h : Inv f p) :
    Inv f (Process p e) := by
  obtain ⟨hn, _, _, _, _⟩ := h
  have hc := Clamp_le (p.phaseIncrement - (p.lpf.Process e).lp / 4096)
    (0 : ℝ) 1 (by norm_num)
  have hfp := FractionalPart_mem (p.phase +
    Clamp (p.phaseIncrement - (p.lpf.Process e).lp / 4096) 0 1 -
    (p.lpf.Process e).lp / 16)
  exact ⟨hn, hfp.1, hfp.2, hc.1, hc.2⟩

theorem Inv_processList (f : ℝ) (es : List ℝ) :
    ∀ (p : PhaseLockedLoop), Inv f p → Inv f (processList p es) := by
  induction es with
  | nil => intro p h; exact h
  | cons e rest ih => intro p h; exact ih (Process p e) (Inv_Process f p e h)

theorem Inv_Init (f : ℝ) (hf0 : 0 ≤ f) (hf1 : f ≤ 1) : Inv f (Init f) :=
  ⟨rfl, by show (-1:ℝ) < 0; norm_num, by show (0:ℝ) < 1; norm_num, hf0, hf1⟩

end PhaseLockedLoop

/-- Claim C2 (corrected: `phase()` lies in the open interval (-1, 1), not in
[0, 1) — `FractionalPart` of a negative argument is negative and the phase
accumulator can go negative under large error inputs).  After `Init` with a
normalized frequency in [0, 1] and any sequence of `Process` calls:
`phase()` is in (-1, 1), `step()` is in [0, 1], `Sync` leaves the phase
increment unchanged, and `Reset` restores it to the nominal frequency. -/
theorem c2_pll_invariants (f : ℝ) (hf0 : 0 ≤ f) (hf1 : f ≤ 1) (es : List ℝ) :
    -1 < (PhaseLockedLoop.processList (PhaseLockedLoop.Init f) es).phase ∧
    (PhaseLockedLoop.processList (PhaseLockedLoop.Init f) es).phase < 1 ∧
    0 ≤ (PhaseLockedLoop.processList (PhaseLockedLoop.Init f) es).step ∧
    (PhaseLockedLoop.processList (PhaseLockedLoop.Init f) es).step ≤ 1 ∧
    (PhaseLockedLoop.Sync
        (PhaseLockedLoop.processList (PhaseLockedLoop.Init f) es)).step =
      (PhaseLockedLoop.processList (PhaseLockedLoop.Init f) es).step ∧
    (PhaseLockedLoop.Reset
        (PhaseLockedLoop.processList (PhaseLockedLoop.Init f) es)).step = f := by
  have h := PhaseLockedLoop.Inv_processList f es (PhaseLockedLoop.Init f)
    (PhaseLockedLoop.Inv_Init f hf0 hf1)
  obtain ⟨hn, h1, h2, h3, h4⟩ := h
  exact ⟨h1, h2, h3, h4, rfl, hn⟩

/-- Witness for C2 at `f = 0` with one error sample. -/
theorem c2_pll_invariants_witness :
    -1 < (PhaseLockedLoop.processList (PhaseLockedLoop.Init 0) [1]).phase ∧
    (PhaseLockedLoop.processList (PhaseLockedLoop.Init 0) [1]).phase < 1 ∧
    0 ≤ (PhaseLockedLoop.processList (PhaseLockedLoop.Init 0) [1]).step ∧
    (PhaseLockedLoop.processList (PhaseLockedLoop.Init 0) [1]).step ≤ 1 ∧
    (PhaseLockedLoop.Sync
        (PhaseLockedLoop.processList (PhaseLockedLoop.Init 0) [1])).step =
      (PhaseLockedLoop.processList (PhaseLockedLoop.Init 0) [1]).step ∧
    (PhaseLockedLoop.Reset
        (PhaseLockedLoop.processList (PhaseLockedLoop.Init 0) [1])).step = 0 :=
  c2_pll_invariants 0 le_rfl zero_le_one [1]

/-- Claim C2, counterexample to `phase() ∈ [0, 1)`: after `Init(1/8)`, a
single `Process` call with error input 200 drives the phase negative (the
lowpassed error is large, the phase accumulator argument lands in (-1, 0),
and `FractionalPart` keeps it there). -/
theorem c2_phase_negative_counterexample :
    (PhaseLockedLoop.Process (PhaseLockedLoop.Init (1/8)) 200).phase < 0 := by
  have hfac : OnePole.Factor ((1:ℝ)/8/32) = 1 - Real.exp (-(kPi/128)) := by
    unfold OnePole.Factor
    have harg : -2 * kPi * ((1:ℝ)/8/32) = -(kPi/128) := by ring
    rw [harg]
  show FractionalPart ((0:ℝ) +
      Clamp (1/8 - (0 + OnePole.Factor ((1:ℝ)/8/32) * (200 - 0)) / 4096) 0 1 -
      (0 + OnePole.Factor ((1:ℝ)/8/32) * (200 - 0)) / 16) < 0
  rw [hfac]
  set A := Real.exp (-(kPi/128)) with hA
  have hklb : (3.14:ℝ) ≤ kPi := by norm_num [kPi]
  have hkub : kPi ≤ (3.15:ℝ) := by norm_num [kPi]
  have ha1 : 1 - kPi/128 ≤ A := by
    have h := Real.add_one_le_exp (-(kPi/128))
    rw [← hA] at h
    linarith
  have ha2 : A ≤ 1/(1 + kPi/128) := by
    have h1 : 1 + kPi/128 ≤ Real.exp (kPi/128) := by
      have h := Real.add_one_le_exp (kPi/128)
      linarith
    have h2 : A = (Real.exp (kPi/128))⁻¹ := by
      rw [hA, ← Real.exp_neg]
    rw [h2, one_div]
    exact inv_anti₀ (by positivity) h1
  have hAlb : (0.975:ℝ) ≤ A := by linarith
  have hAub : A ≤ (0.977:ℝ) := by
    have h977 : (1:ℝ)/(1 + kPi/128) ≤ 0.977 := by
      rw [div_le_iff₀ (by positivity)]
      linarith
    linarith
  have hx0 : (0:ℝ) ≤ 1/8 - (0 + (1 - A) * (200 - 0)) / 4096 := by linarith
  have hx1 : 1/8 - (0 + (1 - A) * (200 - 0)) / 4096 ≤ (1:ℝ) := by linarith
  rw [Clamp_eq_self _ _ _ (not_lt.mpr hx0) (not_lt.mpr hx1)]
  have harg1 : (0:ℝ) + (1/8 - (0 + (1 - A) * (200 - 0)) / 4096) -
      (0 + (1 - A) * (200 - 0)) / 16 < 0 := by linarith
  have harg2 : (-1:ℝ) < 0 + (1/8 - (0 + (1 - A) * (200 - 0)) / 4096) -
      (0 + (1 - A) * (200 - 0)) / 16 := by linarith
  rw [FractionalPart_of_nonpos _ harg2 harg1.le]
  exact harg1

/-- Witness for C5 at `ps = 4`, symbols `3, 1, 0, 2`. -/
theorem c5_write_symbol_packing_witness :
    (Packet.writeSymbols 4 (Packet.Reset (Packet.Init 4 0)) [3, 1, 0, 2]).size = 1 ∧
    (Packet.writeSymbols 4 (Packet.Reset (Packet.Init 4 0)) [3, 1, 0, 2]).bytes.getD 0 0 =
      3 <<< 6 ||| 1 <<< 4 ||| 0 <<< 2 ||| 2 := by
  have h := c5_write_symbol_packing 4 (Packet.Init 4 0) (by decide) 3 1 0 2
    (by decide) (by decide) (by decide) (by decide)
  exact ⟨h.2.2.2.1, h.2.2.2.2⟩


/-! ### util.h: sine / arctangent tables and `VectorToPhase`

The tables are the float literals of the source as exact decimals; floats
are idealised as exact reals here (the demodulator below also needs real
`exp` constants). -/

/-- `kSineQuadrant` from `util.h`, the 65 float literals as exact decimals. -/
def kSineQuadrant : List ℚ :=
  [0, 0.0245412285, 0.0490676743, 0.0735645636,
   0.0980171403, 0.122410675, 0.146730474, 0.170961889,
   0.195090322, 0.21910124, 0.24298018, 0.266712757,
   0.290284677, 0.31368174, 0.336889853, 0.359895037,
   0.382683432, 0.405241314, 0.427555093, 0.44961133,
   0.471396737, 0.492898192, 0.514102744, 0.53499762,
   0.555570233, 0.575808191, 0.595699304, 0.615231591,
   0.634393284, 0.653172843, 0.671558955, 0.689540545,
   0.707106781, 0.724247083, 0.740951125, 0.757208847,
   0.773010453, 0.788346428, 0.803207531, 0.817584813,
   0.831469612, 0.844853565, 0.85772861, 0.870086991,
   0.881921264, 0.893224301, 0.903989293, 0.914209756,
   0.923879533, 0.932992799, 0.941544065, 0.949528181,
   0.956940336, 0.963776066, 0.970031253, 0.97570213,
   0.98078528, 0.985277642, 0.98917651, 0.992479535,
   0.995184727, 0.997290457, 0.998795456, 0.999698819,
   1]

/-- `kArcTanNonNegative` from `util.h`, the 65 float literals as exact decimals. -/
def kArcTanNonNegative : List ℚ :=
  [0, 0.0156237286, 0.0312398334, 0.0468407129,
   0.06241881, 0.0779666338, 0.0934767812, 0.108941957,
   0.124354995, 0.139708874, 0.154996742, 0.170211925,
   0.18534795, 0.200398554, 0.2153577, 0.230219587,
   0.244978663, 0.259629629, 0.274167451, 0.288587362,
   0.302884868, 0.317055753, 0.331096077, 0.345002177,
   0.35877067, 0.372398447, 0.385882669, 0.39922077,
   0.412410442, 0.425449637, 0.43833656, 0.451069656,
   0.463647609, 0.47606933, 0.488333951, 0.500440813,
   0.51238946, 0.524179629, 0.535811238, 0.547284381,
   0.558599315, 0.569756453, 0.580756354, 0.59159971,
   0.602287346, 0.612820202, 0.62319933, 0.633425883,
   0.643501109, 0.653426341, 0.663202993, 0.672832548,
   0.682316555, 0.691656622, 0.700854408, 0.709911618,
   0.71883, 0.727611333, 0.736257429, 0.744770126,
   0.753151281, 0.76140277, 0.76952648, 0.77752431,
   0.785398163]

/-- The float-to-`uint32_t` conversions below are modelled as
`Int.toNat ∘ Int.floor`, which agrees with C truncation-toward-zero for the
non-negative in-range arguments the code produces (a negative argument is
undefined behaviour in the source). -/
noncomputable def Sine (t : ℝ) : ℝ :=
  let index0 := (⌊(256:ℝ) * t⌋).toNat
  let quadrant := (index0 &&& 0xC0) >>> 6
  let index1 := index0 &&& 0x3F
  let index2 := if quadrant &&& 1 ≠ 0 then 0x40 - index1 else index1
  if quadrant &&& 2 ≠ 0 then -((kSineQuadrant.getD index2 0 : ℚ) : ℝ)
  else ((kSineQuadrant.getD index2 0 : ℚ) : ℝ)

/-- `Cosine` from `util.h`. -/
noncomputable def Cosine (t : ℝ) : ℝ := Sine (t + 0.25)

/-- The non-negative-argument branches of `RestrictedArcTan`. -/
noncomputable def arcTanLookup (x : ℝ) : ℝ :=
  if x ≤ 1 then ((kArcTanNonNegative.getD (⌊x * 64 + 1/2⌋).toNat 0 : ℚ) : ℝ)
  else ((kArcTanNonNegative.getD 64 0 : ℚ) : ℝ)

/-- `RestrictedArcTan` from `util.h`; the single recursive call for a
negative argument (whose argument is then non-negative) is inlined. -/
noncomputable def RestrictedArcTan (x : ℝ) : ℝ :=
  if x < 0 then -arcTanLookup (-x) else arcTanLookup x

/-- `RestrictedArcCot` from `util.h`. -/
noncomputable def RestrictedArcCot (x : ℝ) : ℝ :=
  if x < 0 then kPi / 2 + RestrictedArcTan (-x)
  else kPi / 2 - RestrictedArcTan x

/-- `VectorToAngle` from `util.h`. -/
noncomputable def VectorToAngle (x y : ℝ) : ℝ :=
  if x = 0 ∧ y = 0 then 0
  else if |y| < |x| then
    (if x < 0 then RestrictedArcTan (y / x) + kPi else RestrictedArcTan (y / x))
  else
    (if y < 0 then RestrictedArcCot (x / y) + kPi else RestrictedArcCot (x / y))

/-- `VectorToPhase` from `util.h`. -/
noncomputable def VectorToPhase (x y : ℝ) : ℝ :=
  FractionalPart (VectorToAngle x y / (2 * kPi) + 1)

theorem kArcTanNonNegative_bounds :
    ∀ q ∈ kArcTanNonNegative, 0 ≤ q ∧ q ≤ 4/5 :=
  of_decide_eq_true (by with_unfolding_all rfl)

theorem arcTan_getD_bounds (i : ℕ) :
    0 ≤ kArcTanNonNegative.getD i 0 ∧ kArcTanNonNegative.getD i 0 ≤ 4/5 := by
  by_cases h : i < kArcTanNonNegative.length
  · have hm : kArcTanNonNegative.getD i 0 ∈ kArcTanNonNegative := by
      rw [List.getD_eq_getElem _ _ h]
      exact List.getElem_mem h
    exact kArcTanNonNegative_bounds _ hm
  · rw [List.getD_eq_default _ _ (le_of_not_lt h)]
    norm_num

theorem arcTanLookup_bounds (x : ℝ) :
    0 ≤ arcTanLookup x ∧ arcTanLookup x ≤ 4/5 := by
  have key : ∀ i : ℕ, 0 ≤ ((kArcTanNonNegative.getD i 0 : ℚ) : ℝ) ∧
      ((kArcTanNonNegative.getD i 0 : ℚ) : ℝ) ≤ 4/5 := by
    intro i
    have h := arcTan_getD_bounds i
    constructor
    · exact_mod_cast h.1
    · have h2 : ((kArcTanNonNegative.getD i 0 : ℚ) : ℝ) ≤ ((4/5 : ℚ) : ℝ) := by
        exact_mod_cast h.2
      have h3 : ((4/5 : ℚ) : ℝ) = 4/5 := by norm_num
      linarith
  unfold arcTanLookup
  constructor
  · split
    · exact (key _).1
    · exact (key 64).1
  · split
    · exact (key _).2
    · exact (key 64).2

theorem RestrictedArcTan_bounds (x : ℝ) :
    -(4/5) ≤ RestrictedArcTan x ∧ RestrictedArcTan x ≤ 4/5 := by
  unfold RestrictedArcTan
  split
  · have h := arcTanLookup_bounds (-x)
    constructor <;> linarith [h.1, h.2]
  · have h := arcTanLookup_bounds x
    constructor <;> linarith [h.1, h.2]

theorem RestrictedArcTan_nonneg (x : ℝ) (hx : 0 ≤ x) :
    0 ≤ RestrictedArcTan x := by
  unfold RestrictedArcTan
  rw [if_neg (not_lt.mpr hx)]
  exact (arcTanLookup_bounds x).1

theorem RestrictedArcCot_bounds (x : ℝ) :
    0 ≤ RestrictedArcCot x ∧ RestrictedArcCot x ≤ 5/2 := by
  have hklb : (3.14:ℝ) ≤ kPi := by norm_num [kPi]
  have hkub : kPi ≤ (3.15:ℝ) := by norm_num [kPi]
  unfold RestrictedArcCot
  split
  · rename_i hx
    have h1 := RestrictedArcTan_nonneg (-x) (by linarith)
    have h2 := (RestrictedArcTan_bounds (-x)).2
    constructor <;> linarith
  · rename_i hx
    have h1 := RestrictedArcTan_nonneg x (not_lt.mp hx)
    have h2 := (RestrictedArcTan_bounds x).2
    constructor <;> linarith

theorem VectorToAngle_bounds (x y : ℝ) :
    -1 ≤ VectorToAngle x y ∧ VectorToAngle x y ≤ 7 := by
  have hklb : (3.14:ℝ) ≤ kPi := by norm_num [kPi]
  have hkub : kPi ≤ (3.15:ℝ) := by norm_num [kPi]
  unfold VectorToAngle
  split
  · norm_num
  · split
    · split
      · have h := RestrictedArcTan_bounds (y / x)
        constructor <;> linarith [h.1, h.2]
      · have h := RestrictedArcTan_bounds (y / x)
        constructor <;> linarith [h.1, h.2]
    · split
      · have h := RestrictedArcCot_bounds (x / y)
        constructor <;> linarith [h.1, h.2]
      · have h := RestrictedArcCot_bounds (x / y)
        constructor <;> linarith [h.1, h.2]

theorem VectorToPhase_bounds (x y : ℝ) :
    0 ≤ VectorToPhase x y ∧ VectorToPhase x y < 1 := by
  have hklb : (3.14:ℝ) ≤ kPi := by norm_num [kPi]
  have h := VectorToAngle_bounds x y
  have h2pi : (0:ℝ) < 2 * kPi := by linarith
  unfold VectorToPhase
  have hz : 0 ≤ VectorToAngle x y / (2 * kPi) + 1 := by
    have hd : -1 ≤ VectorToAngle x y / (2 * kPi) := by
      rw [le_div_iff₀ h2pi]
      nlinarith [h.1]
    linarith
  exact ⟨FractionalPart_nonneg _ hz, (FractionalPart_mem _).2⟩

theorem VectorToPhase_zero : VectorToPhase (0:ℝ) 0 = 0 := by
  unfold VectorToPhase VectorToAngle
  rw [if_pos ⟨rfl, rfl⟩, zero_div, zero_add]
  unfold FractionalPart Truncate
  rw [if_neg (by norm_num)]
  norm_num


/-! ### carrier_rejection_filter.h and demodulator.h -/

structure Biquad where
  b0 : ℚ
  b1 : ℚ
  b2 : ℚ
  a0 : ℚ
  a1 : ℚ

def kBiquad06 : Biquad :=
  ⟨0.239359876, 0.223228723, 0.239359876, -0.620855598, 0.408454741⟩

def kBiquad08 : Biquad :=
  ⟨0.187847557, 0.0644525698, 0.187847557, -0.989139413, 0.482993238⟩

def kBiquad12 : Biquad :=
  ⟨0.147991307, -0.0759076793, 0.147991307, -1.35345827, 0.600386413⟩

def kBiquad16 : Biquad :=
  ⟨0.13389614, -0.136081787, 0.13389614, -1.53005166, 0.677833259⟩

/-- The coefficient set selected by the `symbol_duration` template argument
(any other duration is rejected by a `static_assert`; modelled as the zero
filter). -/
def kBiquad (M : ℕ) : Biquad :=
  if M = 6 then kBiquad06 else if M = 8 then kBiquad08
  else if M = 12 then kBiquad12 else if M = 16 then kBiquad16
  else ⟨0, 0, 0, 0, 0⟩

structure CarrierRejectionFilter where
  x0 : ℝ
  x1 : ℝ
  x2 : ℝ
  y0 : ℝ
  y1 : ℝ

namespace CarrierRejectionFilter

/-- `CarrierRejectionFilter::Init`. -/
def Init : CarrierRejectionFilter := ⟨0, 0, 0, 0, 0⟩

/-- `CarrierRejectionFilter::Process`: returns the output and new state. -/
noncomputable def Process (f : CarrierRejectionFilter) (M : ℕ) (input : ℝ) :
    ℝ × CarrierRejectionFilter :=
  let out := ((kBiquad M).b0 : ℝ) * input + ((kBiquad M).b1 : ℝ) * f.x0 +
    ((kBiquad M).b2 : ℝ) * f.x1 - ((kBiquad M).a0 : ℝ) * f.y0 -
    ((kBiquad M).a1 : ℝ) * f.y1
  (out, ⟨input, f.x0, f.x1, out, f.y0⟩)

/-- `CarrierRejectionFilter::output`. -/
def output (f : CarrierRejectionFilter) : ℝ := f.y0

end CarrierRejectionFilter

inductive DemodState
  | WAIT_TO_SETTLE
  | SENSE_GAIN
  | CARRIER_SYNC
  | ALIGN
  | OK
  | ERROR
  deriving DecidableEq

/-- `Demodulator<sample_rate, symbol_rate>` state (the source's `decide_`
member is `decideFlag` here). -/
structure Demodulator (SR SY : ℕ) where
  state : DemodState
  hpf : OnePole
  follower : OnePole
  agcGain : ℝ
  pll : PhaseLockedLoop
  crfI : CarrierRejectionFilter
  crfQ : CarrierRejectionFilter
  correlator : Correlator ℝ (SR / SY)
  qHistory : Window ℝ (SR / SY)
  iHistory : Window ℝ (SR / SY)
  decisionPhase : ℝ
  skippedSamples : ℕ
  carrierSyncCount : ℕ
  correlationPeaks : ℕ
  avgPhaseX : Window ℝ 8
  avgPhaseY : Window ℝ 8
  early : Bool
  late : Bool
  decideFlag : Bool

namespace Demodulator

/-- `kSettlingTime = sample_rate * 0.25f` truncated to `uint32_t` (exact
integer arithmetic; the float product is exact for realistic rates). -/
def kSettlingTime (SR : ℕ) : ℕ := SR / 4

def kLevelThreshold : ℝ := 0.05

/-- `kCarrierSyncLength = symbol_rate * 0.025f` truncated to `uint32_t`,
modelled as exact decimal arithmetic. -/
def kCarrierSyncLength (SY : ℕ) : ℕ := SY * 25 / 1000

def kNumCorrelationPeaks : ℕ := 8

def kSymbolDuration (SR SY : ℕ) : ℕ := SR / SY

/-- `Demodulator::Init`. -/
noncomputable def Init (SR SY : ℕ) : Demodulator SR SY :=
  ⟨DemodState.WAIT_TO_SETTLE, OnePole.Init 0.001, OnePole.Init 0.0001, 1,
   PhaseLockedLoop.Init (1 / (kSymbolDuration SR SY : ℝ)),
   CarrierRejectionFilter.Init, CarrierRejectionFilter.Init,
   Correlator.Init ℝ (SR / SY),
   Window.Init ℝ (SR / SY), Window.Init ℝ (SR / SY),
   0, 0, 0, 0, Window.Init ℝ 8, Window.Init ℝ 8,
   false, false, false⟩

/-- `Demodulator::BeginCarrierSync`. -/
def BeginCarrierSync {SR SY : ℕ} (d : Demodulator SR SY) : Demodulator SR SY :=
  { d with
    state := DemodState.CARRIER_SYNC
    pll := d.pll.Sync
    carrierSyncCount := 0 }

/-- `Demodulator::BeginAlignment`. -/
noncomputable def BeginAlignment {SR SY : ℕ} (d : Demodulator SR SY) : Demodulator SR SY :=
  { d with
    state := DemodState.ALIGN
    decisionPhase := 0
    correlator := Correlator.Reset ℝ (SR / SY)
    correlationPeaks := 0 }

/-- `Demodulator::DecideSymbol`: the symbol and the updated `early_`/`late_`
flags (unchanged unless `adjust_timing`). -/
noncomputable def DecideSymbol {SR SY : ℕ} (d : Demodulator SR SY)
    (adjustTiming : Bool) : ℕ × Bool × Bool :=
  let M := kSymbolDuration SR SY
  let qSum := d.qHistory.sum
  let iSum := d.iHistory.sum
  if adjustTiming = true then
    let qLate := qSum - d.qHistory.get (M - 2) - d.qHistory.get (M - 1)
    let iLate := iSum - d.iHistory.get (M - 2) - d.iHistory.get (M - 1)
    let qEarly := qSum - d.qHistory.get 1 - d.qHistory.get 0
    let iEarly := iSum - d.iHistory.get 1 - d.iHistory.get 0
    let qOn := qSum - d.qHistory.get 0 - d.qHistory.get (M - 1)
    let iOn := iSum - d.iHistory.get 0 - d.iHistory.get (M - 1)
    let lateStrength := |qLate| + |iLate|
    let onTimeStrength := |qOn| + |iOn|
    let earlyStrength := |qEarly| + |iEarly|
    let threshold := 1.25 * onTimeStrength
    let early1 := decide (threshold < earlyStrength)
    let late1 := decide (threshold < lateStrength)
    let qSel := if late1 = true ∧ early1 = false then qLate
      else if early1 = true ∧ late1 = false then qEarly else qSum
    let iSel := if late1 = true ∧ early1 = false then iLate
      else if early1 = true ∧ late1 = false then iEarly else iSum
    ((if iSel < 0 then 0 else 2) + (if qSel < 0 then 0 else 1), early1, late1)
  else
    let qOn := qSum - d.qHistory.get 0 - d.qHistory.get (M - 1)
    let iOn := iSum - d.iHistory.get 0 - d.iHistory.get (M - 1)
    ((if iOn < 0 then 0 else 2) + (if qOn < 0 then 0 else 1), d.early, d.late)

/-- The front half of `Demodulator::Demodulate`: oscillator mixing, the
carrier-rejection filters, history writes, the PLL update and the `decide_`
flag; returns the updated state together with `(i, q, prev_phase)`. -/
noncomputable def demodPre {SR SY : ℕ} (d : Demodulator SR SY) (sample : ℝ) :
    Demodulator SR SY × ℝ × ℝ × ℝ :=
  let M := kSymbolDuration SR SY
  let iOsc := Cosine d.pll.phase
  let qOsc := -Sine d.pll.phase
  let iR := d.crfI.Process M (2 * sample * iOsc)
  let qR := d.crfQ.Process M (2 * sample * qOsc)
  let i := iR.1
  let q := qR.1
  let qh := d.qHistory.Write q
  let ih := d.iHistory.Write i
  let phaseError := if d.state = DemodState.CARRIER_SYNC then q - i
    else (if 0 < q then i else -i) - (if 0 < i then q else -q)
  let prevPhase := d.pll.phase
  let pll1 := d.pll.Process (phaseError / 16)
  let phase := pll1.phase
  let wrapped := decide (phase < prevPhase)
  let dec := if wrapped = true
    then decide (prevPhase < d.decisionPhase) || decide (d.decisionPhase ≤ phase)
    else decide (prevPhase < d.decisionPhase) && decide (d.decisionPhase ≤ phase)
  ({ d with
    crfI := iR.2
    crfQ := qR.2
    qHistory := qh
    iHistory := ih
    pll := pll1
    decideFlag := dec }, i, q, prevPhase)

/-- `Demodulator::Demodulate`: the produced symbol is returned as an
`Option` instead of an out-parameter plus `bool`. -/
noncomputable def Demodulate {SR SY : ℕ} (d : Demodulator SR SY)
    (sample : ℝ) : Demodulator SR SY × Option ℕ :=
  let r := demodPre d sample
  let d1 := r.1
  let i := r.2.1
  let q := r.2.2.1
  let prevPhase := r.2.2.2
  let dec := d1.decideFlag
  if d.state = DemodState.CARRIER_SYNC then
    if dec = true then
      if d.carrierSyncCount < kCarrierSyncLength SY then
        if (DecideSymbol d1 false).1 = 0 then
          ({ d1 with carrierSyncCount := d.carrierSyncCount + 1 }, none)
        else ({ d1 with carrierSyncCount := 0 }, none)
      else if (DecideSymbol d1 false).1 ≠ 0 then (BeginAlignment d1, none)
      else (d1, none)
    else (d1, none)
  else if d.state = DemodState.ALIGN then
    if d.correlationPeaks = kNumCorrelationPeaks then
      if 1/2 < FractionalPart (d.decisionPhase - d1.pll.phase + 1) then
        ({ d1 with state := DemodState.OK }, none)
      else (d1, none)
    else
      let cr := d.correlator.Process i q
      if cr.2 = true then
        let correlatedPhase := FractionalPart (prevPhase + d1.pll.step * cr.1.tilt)
        let ax := d.avgPhaseX.Write (Cosine correlatedPhase)
        let ay := d.avgPhaseY.Write (Sine correlatedPhase)
        ({ d1 with
          correlator := cr.1
          correlationPeaks := d.correlationPeaks + 1
          avgPhaseX := ax
          avgPhaseY := ay
          decisionPhase := VectorToPhase ax.sum ay.sum }, none)
      else ({ d1 with correlator := cr.1 }, none)
  else if d.state = DemodState.OK then
    if dec = true then
      ({ d1 with
        early := (DecideSymbol d1 true).2.1
        late := (DecideSymbol d1 true).2.2 }, some (DecideSymbol d1 true).1)
    else (d1, none)
  else (d1, none)

/-- `Demodulator::Process`. -/
noncomputable def Process {SR SY : ℕ} (d : Demodulator SR SY) (sample : ℝ) :
    Demodulator SR SY × Option ℕ :=
  let hp := d.hpf.Process sample
  let sample1 := hp.hp
  let env := |sample1|
  let fol := d.follower.Process env
  let level := fol.lp
  let sample2 := sample1 * d.agcGain
  let d1 := { d with hpf := hp, follower := fol }
  if d.state = DemodState.WAIT_TO_SETTLE then
    if d.skippedSamples < kSettlingTime SR then
      ({ d1 with skippedSamples := d.skippedSamples + 1 }, none)
    else if kLevelThreshold < level then
      ({ d1 with skippedSamples := 0, state := DemodState.SENSE_GAIN }, none)
    else (d1, none)
  else if d.state = DemodState.SENSE_GAIN then
    if d.skippedSamples < kSettlingTime SR then
      ({ d1 with skippedSamples := d.skippedSamples + 1 }, none)
    else if kLevelThreshold < level then
      (BeginCarrierSync { d1 with agcGain := 0.64 / level }, none)
    else ({ d1 with state := DemodState.WAIT_TO_SETTLE }, none)
  else if d.state ≠ DemodState.ERROR then
    if level < kLevelThreshold then
      ({ d1 with state := DemodState.ERROR }, none)
    else Demodulate d1 sample2
  else (d1, none)

noncomputable def processList (SR SY : ℕ) (d : Demodulator SR SY)
    (samples : List ℝ) : Demodulator SR SY :=
  samples.foldl (fun s x => (Process s x).1) d

theorem Demodulate_decisionPhase {SR SY : ℕ} (d : Demodulator SR SY)
    (s : ℝ) :
    (Demodulate d s).1.decisionPhase = d.decisionPhase ∨
    (Demodulate d s).1.decisionPhase = 0 ∨
    ∃ a b, (Demodulate d s).1.decisionPhase = VectorToPhase a b := by
  unfold Demodulate
  dsimp only
  split_ifs <;>
    first
      | (left; rfl)
      | (right; left; rfl)
      | (right; right; exact ⟨_, _, rfl⟩)

theorem Process_decisionPhase {SR SY : ℕ} (d : Demodulator SR SY) (s : ℝ) :
    (Process d s).1.decisionPhase = d.decisionPhase ∨
    (Process d s).1.decisionPhase = 0 ∨
    ∃ a b, (Process d s).1.decisionPhase = VectorToPhase a b := by
  unfold Process
  dsimp only
  split_ifs <;>
    first
      | (left; rfl)
      | (right; left; rfl)
      | (right; right; exact ⟨_, _, rfl⟩)
      | (exact Demodulate_decisionPhase _ _)

theorem processList_decisionPhase (SR SY : ℕ) (samples : List ℝ) :
    ∀ (d : Demodulator SR SY),
      0 ≤ d.decisionPhase ∧ d.decisionPhase < 1 →
      0 ≤ (processList SR SY d samples).decisionPhase ∧
        (processList SR SY d samples).decisionPhase < 1 := by
  induction samples with
  | nil => intro d h; exact h
  | cons s rest ih =>
      intro d h
      refine ih (Process d s).1 ?_
      rcases Process_decisionPhase d s with h1 | h1 | ⟨a, b, h1⟩
      · rw [h1]; exact h
      · rw [h1]; norm_num
      · rw [h1]; exact VectorToPhase_bounds a b

end Demodulator

/-- Claim C10: `VectorToPhase` always returns a value in [0, 1), with
`VectorToPhase(0, 0) = 0`; consequently the demodulator's decision phase —
initialised to 0, and reassigned only to 0 (in `BeginAlignment`) or to a
`VectorToPhase` value (on a correlation peak during alignment) — stays in
[0, 1) over every input sample stream. -/
theorem c10_decision_phase (x y : ℝ) (SR SY : ℕ) (samples : List ℝ) :
    (0 ≤ VectorToPhase x y ∧ VectorToPhase x y < 1) ∧
    VectorToPhase (0:ℝ) 0 = 0 ∧
    (0 ≤ (Demodulator.processList SR SY (Demodulator.Init SR SY)
        samples).decisionPhase ∧
      (Demodulator.processList SR SY (Demodulator.Init SR SY)
        samples).decisionPhase < 1) := by
  refine ⟨VectorToPhase_bounds x y, VectorToPhase_zero, ?_⟩
  refine Demodulator.processList_decisionPhase SR SY samples _ ?_
  show (0:ℝ) ≤ 0 ∧ (0:ℝ) < 1
  norm_num


/-! ### decoder.h

The decoder is modelled at the symbol level: `Receive` is defined over the
sequence of symbols popped from the demodulator (the sample FIFO and the
demodulator feed nothing else in the receive loop), with the abort flag
checked when the stream is exhausted, and at the default `timeout = 0`
(which disables the timeout check). -/

inductive Result
  | RESULT_NONE
  | RESULT_END
  | RESULT_ERROR
  deriving DecidableEq

inductive Error
  | ERROR_NONE
  | ERROR_SYNC
  | ERROR_CRC
  | ERROR_OVERFLOW
  | ERROR_ABORT
  | ERROR_TIMEOUT
  | ERROR_PAGE_WRITE
  deriving DecidableEq

inductive DecState
  | SYNCING
  | DECODING
  | END
  | ERROR
  deriving DecidableEq

/-- Modelled from the spec: the `Page<page_size>` accumulator the decoder
fills with completed packet payloads (`src/inc/packet.h` ships the
word-based `Block` variant instead; `AppendPacket` appends `packet_size`
payload bytes when there is room, `Complete` tests fullness). -/
structure Page where
  data : List ℕ

namespace Page

def Clear (_ : Page) : Page := ⟨[]⟩

def AppendPacket (pageSize ps : ℕ) (pg : Page) (payload : List ℕ) : Page :=
  if pg.data.length ≤ pageSize - ps then ⟨pg.data ++ payload⟩ else pg

end Page

/-- `Decoder<samples_per_symbol, packet_size, page_size>` state (the parts
driven by the symbol stream; the sample FIFO and debug symbol FIFO are not
modelled). -/
structure Decoder (ps pageSize : ℕ) where
  state : DecState
  error : Error
  packet : Packet
  page : Page
  packetCount : ℕ
  syncBlankSize : ℕ
  preambleRemaining : ℕ
  expected : ℕ
  enabled : Bool
  abortFlag : Bool

namespace Decoder

def kPreambleSize : ℕ := 16

def kMaxSyncDuration : ℕ := 1000

/-- `SymbolMask(x) = 1 << x` on `uint32_t`. -/
def SymbolMask (x : ℕ) : ℕ := (1 <<< x) % 2 ^ 32

/-- `Decoder::RestartSync`. -/
def RestartSync {ps pageSize : ℕ} (d : Decoder ps pageSize) :
    Decoder ps pageSize :=
  { d with
    state := DecState.SYNCING
    error := Error.ERROR_NONE
    expected := SymbolMask 4
    syncBlankSize := 0
    preambleRemaining := kPreambleSize }

/-- `Decoder::Realign` (the demodulator decision resync is outside the
model). -/
def Realign {ps pageSize : ℕ} (d : Decoder ps pageSize) :
    Decoder ps pageSize :=
  { RestartSync d with enabled := true }

/-- `Decoder::Resync` (the demodulator carrier resync is outside the
model). -/
def Resync {ps pageSize : ℕ} (d : Decoder ps pageSize) :
    Decoder ps pageSize :=
  { RestartSync d with enabled := true }

/-- `Decoder::Reset`. -/
def Reset {ps pageSize : ℕ} (d : Decoder ps pageSize) : Decoder ps pageSize :=
  { RestartSync ({ d with
      packetCount := 0
      packet := Packet.Reset d.packet
      page := Page.Clear d.page
      abortFlag := false } : Decoder ps pageSize) with enabled := true }

/-- `Decoder::Init`. -/
def Init (ps pageSize seed : ℕ) : Decoder ps pageSize :=
  Reset ⟨DecState.SYNCING, Error.ERROR_NONE, Packet.Init ps seed, ⟨[]⟩,
    0, 0, kPreambleSize, SymbolMask 4, false, false⟩

/-- `Decoder::Abort`. -/
def Abort {ps pageSize : ℕ} (d : Decoder ps pageSize) : Decoder ps pageSize :=
  { d with enabled := false, abortFlag := true }

/-- `Decoder::GetError`. -/
def GetError {ps pageSize : ℕ} (d : Decoder ps pageSize) : Error :=
  if d.state = DecState.ERROR then d.error else Error.ERROR_NONE

/-- `Decoder::Sync(symbol)`: the expected-mask preamble automaton. -/
def Sync {ps pageSize : ℕ} (d : Decoder ps pageSize) (symbol : ℕ) :
    Decoder ps pageSize :=
  if SymbolMask symbol &&& d.expected = 0 then
    { d with state := DecState.ERROR, error := Error.ERROR_SYNC }
  else if symbol = 4 ∧ kMaxSyncDuration ≤ d.syncBlankSize + 1 ∧
      d.packetCount ≠ 0 then
    { d with state := DecState.END, syncBlankSize := d.syncBlankSize + 1 }
  else
    let d1 :=
      if symbol = 4 then
        { d with
          syncBlankSize := d.syncBlankSize + 1
          expected := SymbolMask 1 ||| SymbolMask 2 ||| SymbolMask 4
          preambleRemaining := kPreambleSize }
      else if symbol = 3 then
        { d with
          expected := SymbolMask 0
          preambleRemaining := d.preambleRemaining - 1 }
      else if symbol = 2 then { d with expected := SymbolMask 1 }
      else if symbol = 1 then
        { d with expected := SymbolMask 2 ||| SymbolMask 3 }
      else if symbol = 0 then
        { d with
          expected := SymbolMask 3
          preambleRemaining := d.preambleRemaining - 1 }
      else d
    if d1.preambleRemaining = 0 then
      { d1 with packet := Packet.Reset d1.packet, state := DecState.DECODING }
    else { d1 with state := DecState.SYNCING }

/-- One symbol of the `Receive` loop body; `some result` means the loop
returns. -/
def ReceiveStep {ps pageSize : ℕ} (pageCb : List ℕ → Bool)
    (d : Decoder ps pageSize) (symbol : ℕ) :
    Decoder ps pageSize × Option Result :=
  if d.state = DecState.SYNCING then (Sync d symbol, none)
  else if d.state = DecState.DECODING then
    let p1 := Packet.WriteSymbol ps d.packet symbol
    if p1.size = Packet.packetBytes ps then
      if Packet.calculated_crc p1 = Packet.expected_crc ps p1 then
        let d1 := Realign ({ d with
          packet := p1
          packetCount := d.packetCount + 1 } : Decoder ps pageSize)
        let pg1 := Page.AppendPacket pageSize ps d1.page (p1.bytes.take ps)
        if pg1.data.length = pageSize then
          if pageCb pg1.data = false then
            ({ d1 with
              page := pg1
              state := DecState.ERROR
              error := Error.ERROR_PAGE_WRITE
              enabled := false }, none)
          else (Resync { d1 with page := Page.Clear pg1 }, none)
        else ({ d1 with page := pg1 }, none)
      else ({ d with
        packet := p1
        state := DecState.ERROR
        error := Error.ERROR_CRC }, none)
    else ({ d with packet := p1 }, none)
  else if d.state = DecState.END then (d, some Result.RESULT_END)
  else if d.state = DecState.ERROR then (d, some Result.RESULT_ERROR)
  else (d, none)

/-- `Decoder::Receive` over a finite symbol stream, at `timeout = 0`:
`RESULT_NONE` stands for the loop still waiting for input when the stream
ends without a return. -/
def Receive {ps pageSize : ℕ} (pageCb : List ℕ → Bool) :
    Decoder ps pageSize → List ℕ → Decoder ps pageSize × Result
  | d, [] =>
      if d.abortFlag = true then
        ({ d with state := DecState.ERROR, error := Error.ERROR_ABORT },
          Result.RESULT_ERROR)
      else (d, Result.RESULT_NONE)
  | d, s :: rest =>
      match ReceiveStep pageCb d s with
      | (d1, some res) => (d1, res)
      | (d1, none) => Receive pageCb d1 rest

end Decoder


/-- The 16 two-bit symbols that pack (most significant first) into the
claim's `0xCCCCCCCC` marker code. -/
def c1markerSymbols : List ℕ := [3, 0, 3, 0, 3, 0, 3, 0, 3, 0, 3, 0, 3, 0, 3, 0]

/-- Claim C1, counterexample to the 32-bit marker story: the very first
symbol of the `0xCCCCCCCC` pattern is rejected by the expected-symbol-mask
automaton (a fresh decoder expects only the blank symbol 4), so the decoder
lands in `ERROR_SYNC` instead of DECODE. -/
theorem c1_marker_code_counterexample :
    c1markerSymbols.foldl (fun a s => a * 4 + s) 0 = 0xCCCCCCCC ∧
    (Decoder.Receive (fun _ => true) (Decoder.Init 4 8 0)
      c1markerSymbols).1.state = DecState.ERROR ∧
    Decoder.GetError (Decoder.Receive (fun _ => true) (Decoder.Init 4 8 0)
      c1markerSymbols).1 = Error.ERROR_SYNC ∧
    (Decoder.Receive (fun _ => true) (Decoder.Init 4 8 0)
      c1markerSymbols).2 = Result.RESULT_ERROR := by
  exact ⟨by decide, rfl, rfl, rfl⟩

/-- Claim C1 (corrected): the sync state accumulates no 16-symbol 32-bit
code and knows no `0xCCCCCCCC` / `0xF0F0F0F0` markers.  `Sync` is an
expected-symbol-mask automaton over the five symbols 0..4: a symbol whose
mask is not expected raises `ERROR_SYNC`; a blank (4) extending a run of
`kMaxSyncDuration` blanks after at least one decoded packet sends it to
`END`; and the preamble is accepted after 16 alternation symbols (3/0), so
for example `4, 1, 3, 0, ..., 3, 0` takes a fresh decoder to `DECODING`. -/
theorem c1_sync_automaton (ps pageSize seed : ℕ) (pageCb : List ℕ → Bool)
    (d e : Decoder ps pageSize) (s : ℕ)
    (hmask : Decoder.SymbolMask s &&& d.expected = 0)
    (hblank : Decoder.kMaxSyncDuration ≤ e.syncBlankSize + 1)
    (hcount : e.packetCount ≠ 0)
    (hexp : Decoder.SymbolMask 4 &&& e.expected ≠ 0) :
    ((Decoder.Sync d s).state = DecState.ERROR ∧
      (Decoder.Sync d s).error = Error.ERROR_SYNC ∧
      Decoder.GetError (Decoder.Sync d s) = Error.ERROR_SYNC) ∧
    (Decoder.Sync e 4).state = DecState.END ∧
    (Decoder.Receive (fun _ => true) (Decoder.Init 4 8 0)
      [4, 1, 3, 0, 3, 0, 3, 0, 3, 0, 3, 0, 3, 0, 3, 0, 3, 0]).1.state =
      DecState.DECODING := by
  refine ⟨?_, ?_, ?_⟩
  · have h1 : Decoder.Sync d s =
        { d with state := DecState.ERROR, error := Error.ERROR_SYNC } := by
      unfold Decoder.Sync
      rw [if_pos hmask]
    rw [h1]
    exact ⟨rfl, rfl, rfl⟩
  · have h2 : Decoder.Sync e 4 =
        { e with
          state := DecState.END
          syncBlankSize := e.syncBlankSize + 1 } := by
      unfold Decoder.Sync
      rw [if_neg hexp, if_pos ⟨rfl, hblank, hcount⟩]
    rw [h2]
  · decide

/-- Witness for C1: a fresh decoder expects only symbol 4, so symbol 3
errors; a decoder with a 999-blank run and one packet ends on the next
blank; and the alternation preamble reaches `DECODING`. -/
theorem c1_sync_automaton_witness :
    ((Decoder.Sync (Decoder.Init 4 8 0) 3).state = DecState.ERROR ∧
      (Decoder.Sync (Decoder.Init 4 8 0) 3).error = Error.ERROR_SYNC ∧
      Decoder.GetError (Decoder.Sync (Decoder.Init 4 8 0) 3) =
        Error.ERROR_SYNC) ∧
    (Decoder.Sync ({ Decoder.Init 4 8 0 with
      syncBlankSize := 999, packetCount := 1 } : Decoder 4 8) 4).state =
      DecState.END ∧
    (Decoder.Receive (fun _ => true) (Decoder.Init 4 8 0)
      [4, 1, 3, 0, 3, 0, 3, 0, 3, 0, 3, 0, 3, 0, 3, 0, 3, 0]).1.state =
      DecState.DECODING :=
  c1_sync_automaton 4 8 0 (fun _ => true) (Decoder.Init 4 8 0)
    ({ Decoder.Init 4 8 0 with syncBlankSize := 999, packetCount := 1 } :
      Decoder 4 8) 3
    (by decide) (by decide) (by decide) (by decide)

/-- Claim C9 (corrected): in the `ERROR` state every `Receive` that
consumes a symbol returns `RESULT_ERROR` immediately, leaving the whole
state — in particular the error kind — untouched, and the state remains
`ERROR` on every path; but the abort path does not preserve the kind: a
`Receive` with the abort flag set overwrites it with `ERROR_ABORT`.
`Reset` restores `SYNCING` with `ERROR_NONE`. -/
theorem c9_error_terminal (ps pageSize : ℕ) (pageCb : List ℕ → Bool)
    (d : Decoder ps pageSize) (syms : List ℕ)
    (hstate : d.state = DecState.ERROR) :
    (syms ≠ [] ∨ d.abortFlag = true →
      (Decoder.Receive pageCb d syms).2 = Result.RESULT_ERROR) ∧
    (Decoder.Receive pageCb d syms).1.state = DecState.ERROR ∧
    (syms ≠ [] → (Decoder.Receive pageCb d syms).1 = d ∧
      Decoder.GetError (Decoder.Receive pageCb d syms).1 = d.error) ∧
    (Decoder.GetError (Decoder.Receive pageCb d syms).1 = d.error ∨
      Decoder.GetError (Decoder.Receive pageCb d syms).1 =
        Error.ERROR_ABORT) ∧
    (Decoder.Reset d).state = DecState.SYNCING ∧
    Decoder.GetError (Decoder.Reset d) = Error.ERROR_NONE := by
  have hgd : Decoder.GetError d = d.error := by
    unfold Decoder.GetError
    rw [if_pos hstate]
  have hstep : ∀ s, Decoder.ReceiveStep pageCb d s =
      (d, some Result.RESULT_ERROR) := by
    intro s
    unfold Decoder.ReceiveStep
    rw [hstate]
    rfl
  cases syms with
  | nil =>
      have hr : Decoder.Receive pageCb d [] =
          (if d.abortFlag = true then
            ({ d with state := DecState.ERROR, error := Error.ERROR_ABORT },
              Result.RESULT_ERROR)
          else (d, Result.RESULT_NONE)) := rfl
      by_cases hab : d.abortFlag = true
      · rw [hr, if_pos hab]
        refine ⟨fun _ => rfl, rfl, fun h => absurd rfl h, Or.inr rfl, rfl, rfl⟩
      · rw [hr, if_neg hab]
        refine ⟨?_, hstate, fun h => absurd rfl h, Or.inl hgd, rfl, rfl⟩
        intro h
        exact absurd (h.resolve_left (fun hne => hne rfl)) hab
  | cons s rest =>
      have hrec : Decoder.Receive pageCb d (s :: rest) =
          (d, Result.RESULT_ERROR) := by
        show (match Decoder.ReceiveStep pageCb d s with
          | (d1, some res) => (d1, res)
          | (d1, none) => Decoder.Receive pageCb d1 rest) =
          (d, Result.RESULT_ERROR)
        rw [hstep s]
      rw [hrec]
      exact ⟨fun _ => rfl, hstate, fun _ => ⟨rfl, hgd⟩, Or.inl hgd, rfl, rfl⟩

/-- A concrete `ERROR_CRC` decoder state for the C9 witness. -/
def c9werr : Decoder 4 8 :=
  { Decoder.Init 4 8 0 with state := DecState.ERROR, error := Error.ERROR_CRC }

/-- Witness for C9 on a concrete `ERROR_CRC` state and one pending
symbol. -/
theorem c9_error_terminal_witness :
    (([1] : List ℕ) ≠ [] ∨ c9werr.abortFlag = true →
      (Decoder.Receive (fun _ => true) c9werr [1]).2 = Result.RESULT_ERROR) ∧
    (Decoder.Receive (fun _ => true) c9werr [1]).1.state = DecState.ERROR ∧
    (([1] : List ℕ) ≠ [] →
      (Decoder.Receive (fun _ => true) c9werr [1]).1 = c9werr ∧
      Decoder.GetError (Decoder.Receive (fun _ => true) c9werr [1]).1 =
        c9werr.error) ∧
    (Decoder.GetError (Decoder.Receive (fun _ => true) c9werr [1]).1 =
        c9werr.error ∨
      Decoder.GetError (Decoder.Receive (fun _ => true) c9werr [1]).1 =
        Error.ERROR_ABORT) ∧
    (Decoder.Reset c9werr).state = DecState.SYNCING ∧
    Decoder.GetError (Decoder.Reset c9werr) = Error.ERROR_NONE :=
  c9_error_terminal 4 8 (fun _ => true) c9werr [1] rfl

/-- The alternation preamble followed by 40 zero symbols: ten `00` bytes
fill the packet, whose stored CRC 0 does not match the CRC-32 of the zero
payload under seed 5, so the decoder ends in `ERROR_CRC`. -/
def c9symbols : List ℕ :=
  [4, 1, 3, 0, 3, 0, 3, 0, 3, 0, 3, 0, 3, 0, 3, 0, 3, 0] ++
    List.replicate 40 0

/-- The decoder after receiving `c9symbols` from fresh. -/
def c9dec : Decoder 4 8 :=
  (Decoder.Receive (fun _ => true) (Decoder.Init 4 8 5) c9symbols).1

/-- Claim C9, counterexample to "GetError returns that kind ... until Reset
is called": the decoder reaches `ERROR` with kind `ERROR_CRC`; after
`Abort()`, the next `Receive` still returns `RESULT_ERROR`, but it
overwrites the stored kind with `ERROR_ABORT` without any `Reset`. -/
theorem c9_abort_overwrites_error_kind :
    c9dec.state = DecState.ERROR ∧
    Decoder.GetError c9dec = Error.ERROR_CRC ∧
    (Decoder.Receive (fun _ => true) (Decoder.Abort c9dec) []).2 =
      Result.RESULT_ERROR ∧
    Decoder.GetError (Decoder.Receive (fun _ => true)
      (Decoder.Abort c9dec) []).1 = Error.ERROR_ABORT := by
  exact ⟨by decide, by decide, by decide, by decide⟩

end qpsk
